import Mathlib

/-!
goDirUsage: directory-entry decoding and recursive size aggregation.

A shallow embedding of `dirusage.go`.

* Go byte slices are modelled with their capacity: a `Slice` carries the visible
  bytes (`[0, len)`) and the bytes of the backing array between `len` and `cap`.
  A slice expression that Go rejects at run time yields `none`.
* A run of a Go function ends in one of three ways (`Outcome`): it returns, it
  panics, or the fuel given to the model is exhausted before it returns.
* The `Dirent` struct the offsets are taken from is not declared in `dirusage.go`;
  its field offsets and sizes are the fields of a `Layout`.
* `int64` arithmetic (`fileNumber--`, `rsize += tsize`) wraps around (`wrapInt64`).
* `dirSize` reaches the file system through `fileCheck`, passed as a state-passing
  function; `path.Join` is passed as `join`. File trees (`Tree`) describe the answers
  of `fileCheck`, and the state of `logged` records which paths were classified.
* `fileCheck` reaches the operating system through an `OS` record of state-passing
  calls; `unix.ReadDirent` is given the length of the buffer it is offered and hands
  back the bytes it wrote. `dirRead` is the read of a directory kept as the list of its
  records not yet delivered.
-/

namespace GoDirUsage

/-! ## Go runtime model -/

/-- A byte of a Go `[]byte`. -/
abbrev Byte := Fin 256

/-- A Go `string`, as the sequence of its bytes. -/
abbrev Name := List Byte

/-- A Go `error` value coming from the operating system (`unix.Errno`). -/
structure GoError where
  errno : Nat
deriving DecidableEq, Repr

/-- How a call ends: normal return, run-time panic, or fuel exhausted. -/
inductive Outcome (α : Type) where
  | ret (a : α)
  | panic
  | outOfFuel
deriving DecidableEq, Repr

/-- A Go slice of bytes: `vis` are the elements `[0, len)`, `ext` the elements of
the backing array in `[len, cap)`. -/
structure Slice where
  vis : List Byte
  ext : List Byte
deriving DecidableEq, Repr

/-- Go `len(s)`. -/
def Slice.len (s : Slice) : Nat := s.vis.length

/-- Go `cap(s)`. -/
def Slice.cap (s : Slice) : Nat := s.vis.length + s.ext.length

/-- Go `s[lo:hi]`: legal exactly when `lo ≤ hi ≤ cap(s)`. -/
def Slice.slice (s : Slice) (lo hi : Nat) : Option Slice :=
  if lo ≤ hi ∧ hi ≤ s.cap then
    some { vis := ((s.vis ++ s.ext).drop lo).take (hi - lo)
           ext := (s.vis ++ s.ext).drop hi }
  else none

/-- Go `s[lo:]`: the upper bound defaults to `len(s)`. -/
def Slice.sliceFrom (s : Slice) (lo : Nat) : Option Slice := s.slice lo s.len

/-- Go `s[:hi]`. -/
def Slice.sliceTo (s : Slice) (hi : Nat) : Option Slice := s.slice 0 hi

/-- Go `binary.LittleEndian.Uint16(b)`: panics unless `len(b) ≥ 2`. -/
def Uint16 (b : Slice) : Option Nat :=
  match b.vis with
  | b0 :: b1 :: _ => some (b0.val + 256 * b1.val)
  | _ => none

/-- Go `binary.LittleEndian.Uint64(b)`: panics unless `len(b) ≥ 8`. -/
def Uint64 (b : Slice) : Option Nat :=
  match b.vis with
  | b0 :: b1 :: b2 :: b3 :: b4 :: b5 :: b6 :: b7 :: _ =>
    some (b0.val + 256 * (b1.val + 256 * (b2.val + 256 * (b3.val + 256 * (b4.val
      + 256 * (b5.val + 256 * (b6.val + 256 * b7.val)))))))
  | _ => none

/-- Two's-complement wrap-around of a signed 64-bit result. -/
def wrapInt64 (x : Int) : Int := (x + 2 ^ 63) % 2 ^ 64 - 2 ^ 63

/-! ## Layout constants (`InoOff`, `RecOff`, `NameOff`, `InoSize`, `RecSize`, `NameSize`) -/

/-- Offsets and sizes of the fields of the platform `Dirent` struct. -/
structure Layout where
  InoOff : Nat
  RecOff : Nat
  NameOff : Nat
  InoSize : Nat
  RecSize : Nat
  NameSize : Nat
deriving DecidableEq, Repr

/-- The `unix.Dirent` of linux/amd64: `Ino uint64; Off int64; Reclen uint16;
Type uint8; Name [256]int8`. -/
def linuxAmd64 : Layout :=
  { InoOff := 0, RecOff := 16, NameOff := 19, InoSize := 8, RecSize := 2, NameSize := 256 }

/-- A layout in which the inode is 64 bits wide, the record length 16 bits wide, and
the name field comes after both. -/
def Layout.Valid (L : Layout) : Prop :=
  L.InoSize = 8 ∧ L.RecSize = 2 ∧ L.InoOff + L.InoSize ≤ L.NameOff ∧
    L.RecOff + L.RecSize ≤ L.NameOff

instance (L : Layout) : Decidable L.Valid := by
  unfold Layout.Valid; infer_instance

/-! ## `parseDirent` -/

/-- Index of the first zero byte, as found by `for i, b := range s { if b == 0 ... }`. -/
def firstZero : List Byte → Option Nat
  | [] => none
  | b :: bs => if b = 0 then some 0 else (firstZero bs).map (· + 1)

/-- The name `"."`. -/
def dot : Name := [46]

/-- The name `".."`. -/
def dotdot : Name := [46, 46]

/-- Lines 56-73 of `parseDirent`: the name decoded from record `rec`. -/
def decodeName (L : Layout) (rec : Slice) : Option Name := do
  let nameBuf ← rec.sliceFrom L.NameOff
  let nameBufLen := nameBuf.len
  let nameBuf ←
    if nameBufLen ≤ 8 then
      match firstZero nameBuf.vis with
      | some i => nameBuf.sliceTo i
      | none => some nameBuf
    else do
      let window ← nameBuf.sliceFrom (nameBufLen - 8)
      match firstZero window.vis with
      | some i => nameBuf.sliceTo (nameBufLen - 8 + i)
      | none => some nameBuf
  some nameBuf.vis

/-- The loop condition of `parseDirent` (line 45). -/
def loopCond (L : Layout) (buf : Slice) (fileNumber : Int) : Bool :=
  decide (buf.len > L.RecOff + L.RecSize) && decide (fileNumber ≠ 0)

/-- One iteration of the loop body of `parseDirent` (lines 46-78): the new values of
`buf`, `names` and `fileNumber`, or `none` when the iteration panics. -/
def parseDirentBody (L : Layout) (buf : Slice) (names : List Name) (fileNumber : Int) :
    Option (Slice × List Name × Int) := do
  let recLen ← (buf.slice L.RecOff (L.RecOff + L.RecSize)).bind Uint16
  let rec ← buf.sliceTo recLen
  let buf ← buf.sliceFrom recLen
  let ino ← (rec.slice L.InoOff (L.InoOff + L.InoSize)).bind Uint64
  if ino = 0 then
    some (buf, names, fileNumber)
  else do
    let name ← decodeName L rec
    if name = dot ∨ name = dotdot then
      some (buf, names, fileNumber)
    else
      some (buf, names ++ [name], wrapInt64 (fileNumber - 1))

/-- The function `parseDirent(buf, names, fileNumber)`, run for at most `fuel`
iterations of its loop. It returns the name list and a nil error. -/
def parseDirent (L : Layout) :
    Nat → Slice → List Name → Int → Outcome (List Name × Option GoError)
  | 0, buf, names, fileNumber =>
    if loopCond L buf fileNumber then .outOfFuel else .ret (names, none)
  | fuel + 1, buf, names, fileNumber =>
    if loopCond L buf fileNumber then
      match parseDirentBody L buf names fileNumber with
      | none => .panic
      | some (buf, names, fileNumber) => parseDirent L fuel buf names fileNumber
    else .ret (names, none)

/-! ## Records, as the claims describe them -/

/-- Little-endian value of a byte sequence. -/
def leBytes : List Byte → Nat
  | [] => 0
  | b :: bs => b.val + 256 * leBytes bs

/-- The length a raw record declares: its little-endian field at `RecOff`. -/
def declaredLen (L : Layout) (r : List Byte) : Nat :=
  leBytes ((r.drop L.RecOff).take L.RecSize)

/-- The inode number of a raw record: its little-endian field at `InoOff`. -/
def inodeOf (L : Layout) (r : List Byte) : Nat :=
  leBytes ((r.drop L.InoOff).take L.InoSize)

/-- The name field of a raw record: the bytes from `NameOff` to the end of the record. -/
def nameField (L : Layout) (r : List Byte) : List Byte := r.drop L.NameOff

/-- The bytes that precede the first zero byte (all of them when there is none). -/
def untilZero (f : List Byte) : Name := f.takeWhile (fun b => decide (b ≠ 0))

/-- The name of a raw record: the bytes of its name field before the first zero byte. -/
def nameOf (L : Layout) (r : List Byte) : Name := untilZero (nameField L r)

/-- The bytes of a name field that precede the first zero byte found in its last
eight bytes (in the whole field when it has at most eight bytes). -/
def windowName (f : List Byte) : Name :=
  if f.length ≤ 8 then untilZero f
  else f.take (f.length - 8) ++ untilZero (f.drop (f.length - 8))

/-- A whole record: its declared length is its actual length, it reaches the name
offset and it is longer than the header the loop tests for. -/
def Whole (L : Layout) (r : List Byte) : Prop :=
  declaredLen L r = r.length ∧ L.NameOff ≤ r.length ∧ L.RecOff + L.RecSize < r.length

instance (L : Layout) (r : List Byte) : Decidable (Whole L r) := by
  unfold Whole; infer_instance

/-- A well-formed record: declared length equal to the actual length and at least
`NameOff + 1`; the name field holds a zero byte, and the first one lies in the last
eight bytes of the field unless the field has at most eight bytes. -/
def WellFormed (L : Layout) (r : List Byte) : Prop :=
  declaredLen L r = r.length ∧ L.NameOff + 1 ≤ r.length ∧ (0 : Byte) ∈ nameField L r ∧
    ((nameField L r).length ≤ 8 ∨ (nameField L r).length - 8 ≤ (nameOf L r).length)

instance (L : Layout) (r : List Byte) : Decidable (WellFormed L r) := by
  unfold WellFormed; infer_instance

/-- The pseudo-entries `"."` and `".."`. -/
def isPseudo (n : Name) : Bool := decide (n = dot ∨ n = dotdot)

/-- Names of the records with a nonzero inode whose name is neither `"."` nor
`".."`, in buffer order. -/
def liveNames (L : Layout) (recs : List (List Byte)) : List Name :=
  ((recs.filter (fun r => decide (inodeOf L r ≠ 0))).map (nameOf L)).filter
    (fun n => !isPseudo n)

/-- The same selection, with each name read through the eight-byte window. -/
def windowNames (L : Layout) (recs : List (List Byte)) : List Name :=
  ((recs.filter (fun r => decide (inodeOf L r ≠ 0))).map
    (fun r => windowName (nameField L r))).filter (fun n => !isPseudo n)

/-- A signed 64-bit value. -/
def IsInt64 (n : Int) : Prop := -2 ^ 63 ≤ n ∧ n < 2 ^ 63

instance (n : Int) : Decidable (IsInt64 n) := by
  unfold IsInt64; infer_instance

/-- The number of decrements after which a 64-bit budget reads zero. -/
def credit (n : Int) : Nat := (n % 2 ^ 64).toNat

/-- The name list and budget after the iteration that consumes the whole record `r`. -/
def afterRecord (L : Layout) (r : List Byte) (names : List Name) (fileNumber : Int) :
    List Name × Int :=
  if inodeOf L r = 0 then (names, fileNumber)
  else if isPseudo (windowName (nameField L r)) then (names, fileNumber)
  else (names ++ [windowName (nameField L r)], wrapInt64 (fileNumber - 1))

/-- A name field that is non-empty and does not begin with a zero byte. -/
def StartsNonzero : List Byte → Prop
  | [] => False
  | b :: _ => b ≠ 0

instance (f : List Byte) : Decidable (StartsNonzero f) := by
  cases f <;> unfold StartsNonzero <;> infer_instance

/-- The part of one iteration of `parseDirent` that depends on the buffer alone: the
buffer after the record at its front, and the name the iteration accepts, if any;
`none` when the iteration panics. -/
def recordStep (L : Layout) (buf : Slice) : Option (Slice × Option Name) := do
  let recLen ← (buf.slice L.RecOff (L.RecOff + L.RecSize)).bind Uint16
  let rec ← buf.sliceTo recLen
  let buf ← buf.sliceFrom recLen
  let ino ← (rec.slice L.InoOff (L.InoOff + L.InoSize)).bind Uint64
  if ino = 0 then
    some (buf, none)
  else do
    let name ← decodeName L rec
    if name = dot ∨ name = dotdot then some (buf, none) else some (buf, some name)

/-- The outcome of a `parseDirent` call with `names` put in front of the list it
returns. -/
def prependNames (names : List Name) :
    Outcome (List Name × Option GoError) → Outcome (List Name × Option GoError)
  | .ret (out, err) => .ret (names ++ out, err)
  | .panic => .panic
  | .outOfFuel => .outOfFuel

/-- A buffer in which every record the loop reaches declares a length that is at least
the name offset and at most the number of bytes remaining: either too few bytes remain
for the loop to go on, or the declared length of the record at the front is in that
range and the bytes after the record form such a buffer again. -/
inductive Chained (L : Layout) : List Byte → Prop where
  | done (buf : List Byte) (h : buf.length ≤ L.RecOff + L.RecSize) : Chained L buf
  | step (buf : List Byte) (h1 : L.NameOff ≤ declaredLen L buf)
      (h2 : declaredLen L buf ≤ buf.length)
      (h3 : Chained L (buf.drop (declaredLen L buf))) : Chained L buf

/-! ## `dirSize` -/

/-- The four results of `fileCheck(fp)`. -/
structure FileCheckResult where
  names : List Name
  size : Int
  dir : Bool
  err : Option GoError
deriving DecidableEq, Repr

/-- The `for _, name := range names` loop of `dirSize` (lines 132-139): `recurse` is the
recursive call, `fileErr` the outer error variable returned after the loop, `s` the
state of the file system interface. -/
def dirSizeLoop {Path σ : Type} (join : Path → Name → Path)
    (recurse : Path → σ → Outcome ((Int × Option GoError) × σ)) (fp : Path)
    (fileErr : Option GoError) :
    List Name → Int → σ → Outcome ((Int × Option GoError) × σ)
  | [], rsize, s => .ret ((rsize, fileErr), s)
  | name :: rest, rsize, s =>
    match recurse (join fp name) s with
    | .ret ((tsize, childErr), s) =>
      if childErr ≠ none then .ret ((rsize, childErr), s)
      else dirSizeLoop join recurse fp fileErr rest (wrapInt64 (rsize + tsize)) s
    | .panic => .panic
    | .outOfFuel => .outOfFuel

/-- The function `dirSize(fp)`, with at most `fuel` nested calls. `join` is
`path.Join`; `fileCheck` is the call `fileCheck(fp)` against the file system, whose
state it reads and updates. -/
def dirSize {Path σ : Type} (join : Path → Name → Path)
    (fileCheck : Path → σ → Outcome (FileCheckResult × σ)) :
    Nat → Path → σ → Outcome ((Int × Option GoError) × σ)
  | 0, _, _ => .outOfFuel
  | fuel + 1, fp, s =>
    match fileCheck fp s with
    | .ret (r, s) =>
      if r.err ≠ none then .ret ((r.size, r.err), s)
      else if !r.dir then .ret ((r.size, none), s)
      else dirSizeLoop join (dirSize join fileCheck fuel) fp r.err r.names r.size s
    | .panic => .panic
    | .outOfFuel => .outOfFuel

/-- A file system interface that answers `fileCheck(fp)` with `fc fp` and records the
path in its state, the log of the paths classified so far. -/
def logged {Path : Type} (fc : Path → FileCheckResult) :
    Path → List Path → Outcome (FileCheckResult × List Path) :=
  fun fp log => .ret (fc fp, log ++ [fp])

/-! ## `isDir`, `fileCheck` and `GetFileSystem` -/

/-- The constant `unix.S_IFDIR`. -/
def S_IFDIR : Nat := 0x4000

/-- The constant `unix.S_IFMT`, the mask of the file-type bits of a mode. -/
def S_IFMT : Nat := 0xF000

/-- The function `isDir(mode)` (line 40): `mode&unix.S_IFDIR == uint32(16384)`. -/
def isDir (mode : Nat) : Bool := decide (mode &&& S_IFDIR = 16384)

/-- The fields of `unix.Stat_t` that `fileCheck` reads. -/
structure Stat_t where
  Mode : Nat
  Size : Int
deriving DecidableEq, Repr

/-- What `unix.ReadDirent(fd, buf)` hands back: the count `n`, the error, and the bytes
the kernel wrote at the front of `buf`. -/
structure ReadResult where
  n : Int
  err : Option GoError
  data : List Byte
deriving DecidableEq, Repr

/-- The operating system calls `fileCheck` makes, over a state `σ`: `unix.Open`,
`unix.Fstat`, `unix.ReadDirent` (given the descriptor and `len(buf)`) and
`unix.Close`. -/
structure OS (Path σ : Type) where
  Open : Path → σ → (Int × Option GoError) × σ
  Fstat : Int → σ → (Stat_t × Option GoError) × σ
  ReadDirent : Int → Nat → σ → ReadResult × σ
  Close : Int → σ → σ

/-- The buffer after the kernel has written `data` at its front: bytes beyond
`len(buf)` are never written. -/
def readInto (buf : Slice) (data : List Byte) : Slice :=
  { vis := data.take buf.len ++ buf.vis.drop (data.take buf.len).length
    ext := buf.ext }

/-- Go `make([]byte, n)`: `n` zero bytes, capacity `n`. -/
def makeBytes (n : Nat) : Slice := { vis := List.replicate n 0, ext := [] }

/-- The result of a call, without the final state. -/
def Outcome.result {α σ : Type} : Outcome (α × σ) → Outcome α
  | .ret (a, _) => .ret a
  | .panic => .panic
  | .outOfFuel => .outOfFuel

/-- The read loop of `fileCheck` (lines 103-120), for at most `fuel` reads, each
`parseDirent` call running for at most `pfuel` iterations. It returns the values of
`names` and `err` that `fileCheck` returns after it. -/
def fileCheckLoop {σ : Type} (L : Layout) (ReadDirent : Int → Nat → σ → ReadResult × σ)
    (fd : Int) (pfuel : Nat) :
    Nat → Slice → List Name → σ → Outcome ((List Name × Option GoError) × σ)
  | 0, _, _, _ => .outOfFuel
  | fuel + 1, buf, names, s =>
    match ReadDirent fd buf.len s with
    | (r, s) =>
      if r.n = 0 then .ret ((names, none), s)
      else if r.err ≠ none then .ret ((names, r.err), s)
      else if r.n < 0 then .panic
      else
        match (readInto buf r.data).sliceTo r.n.toNat with
        | none => .panic
        | some buf =>
          match parseDirent L pfuel buf names (-1) with
          | .ret (names, err) =>
            if err ≠ none then .ret ((names, err), s)
            else fileCheckLoop L ReadDirent fd pfuel fuel buf names s
          | .panic => .panic
          | .outOfFuel => .outOfFuel

/-- The function `fileCheck(fp)` (lines 85-122). The deferred `unix.Close(fd)` runs
when the function returns after a successful `unix.Open`. -/
def fileCheck {Path σ : Type} (L : Layout) (os : OS Path σ) (fuel : Nat) (fp : Path) (s : σ) :
    Outcome (FileCheckResult × σ) :=
  match os.Open fp s with
  | ((fd, err), s) =>
    if err ≠ none then .ret ({ names := [], size := 0, dir := false, err := err }, s)
    else
      match os.Fstat fd s with
      | ((fStat, err), s) =>
        if err ≠ none then
          .ret ({ names := [], size := 0, dir := false, err := err }, os.Close fd s)
        else if !isDir (fStat.Mode % 2 ^ 32) then
          .ret ({ names := [], size := fStat.Size, dir := false, err := none }, os.Close fd s)
        else
          match fileCheckLoop L os.ReadDirent fd fuel fuel (makeBytes (32 * 1024)) [] s with
          | .ret ((names, err), s) =>
            .ret ({ names := names, size := 0, dir := true, err := err }, os.Close fd s)
          | .panic => .panic
          | .outOfFuel => .outOfFuel

/-- The variant of the read loop that offers a fresh 32 KiB buffer to every read. -/
def fileCheckLoopFresh {σ : Type} (L : Layout) (ReadDirent : Int → Nat → σ → ReadResult × σ)
    (fd : Int) (pfuel : Nat) :
    Nat → List Name → σ → Outcome ((List Name × Option GoError) × σ)
  | 0, _, _ => .outOfFuel
  | fuel + 1, names, s =>
    match ReadDirent fd (makeBytes (32 * 1024)).len s with
    | (r, s) =>
      if r.n = 0 then .ret ((names, none), s)
      else if r.err ≠ none then .ret ((names, r.err), s)
      else if r.n < 0 then .panic
      else
        match (readInto (makeBytes (32 * 1024)) r.data).sliceTo r.n.toNat with
        | none => .panic
        | some buf =>
          match parseDirent L pfuel buf names (-1) with
          | .ret (names, err) =>
            if err ≠ none then .ret ((names, err), s)
            else fileCheckLoopFresh L ReadDirent fd pfuel fuel names s
          | .panic => .panic
          | .outOfFuel => .outOfFuel

/-- The longest prefix of `recs` whose records fit together in `len` bytes, and the
records left over. -/
def fitPrefix : Nat → List (List Byte) → List (List Byte) × List (List Byte)
  | _, [] => ([], [])
  | len, r :: rs =>
    if r.length ≤ len then
      ((r :: (fitPrefix (len - r.length) rs).1), (fitPrefix (len - r.length) rs).2)
    else ([], r :: rs)

/-- The error `EINVAL`, returned by a read whose buffer is too small for the next record. -/
def EINVAL : GoError := ⟨22⟩

/-- The read of a directory whose state is the list of the whole records not yet
delivered: offered `len` bytes it returns the longest prefix of them that fits, fails
when the next record does not fit, and returns 0 at the end of the directory. -/
def dirRead (_fd : Int) (len : Nat) (recs : List (List Byte)) : ReadResult × List (List Byte) :=
  match recs with
  | [] => ({ n := 0, err := none, data := [] }, [])
  | r :: rs =>
    if len < r.length then ({ n := -1, err := some EINVAL, data := [] }, r :: rs)
    else
      ({ n := ((fitPrefix len (r :: rs)).1.flatten.length : Nat), err := none,
         data := (fitPrefix len (r :: rs)).1.flatten }, (fitPrefix len (r :: rs)).2)

/-- The reads of a directory, begun in state `s` with a buffer of `len` bytes,
deliver the non-empty batches `batches` one after the other, each within the buffer
offered (the bytes filled by the read before), and then a read whose count is zero
(whatever error it reports). -/
def Delivers {σ : Type} (rd : Int → Nat → σ → ReadResult × σ) (fd : Int) :
    σ → Nat → List (List Byte) → Prop
  | s, len, [] => (rd fd len s).1.n = 0
  | s, len, b :: bs =>
    (rd fd len s).1 = { n := (b.length : Nat), err := none, data := b } ∧ b ≠ [] ∧
      b.length ≤ len ∧ Delivers rd fd (rd fd len s).2 b.length bs

/-- The fields of `unix.Statfs_t` that `GetFileSystem` reads. -/
structure Statfs_t where
  Bsize : Int
  Blocks : Nat
  Bavail : Nat
deriving DecidableEq, Repr

/-- The struct `FileSystemUsageStruct`. -/
structure FileSystemUsageStruct where
  AvailSize : Nat
  UsedSize : Nat
  AllSize : Nat
deriving DecidableEq, Repr

/-- Go `uint64(x)` of a signed 64-bit value. -/
def toUint64 (x : Int) : Nat := (x % 2 ^ 64).toNat

/-- The function `GetFileSystem(path)` (lines 27-37); `Statfs` is `unix.Statfs`, giving
the filled `sfs` and the error. Products and the difference are taken modulo `2 ^ 64`. -/
def GetFileSystem {Path : Type} (Statfs : Path → Statfs_t × Option GoError) (path : Path) :
    FileSystemUsageStruct × Option GoError :=
  match Statfs path with
  | (sfs, err) =>
    if err ≠ none then ({ AvailSize := 0, UsedSize := 0, AllSize := 0 }, err)
    else
      let bSize := toUint64 sfs.Bsize
      let availSize := (sfs.Bavail * bSize) % 2 ^ 64
      let allSize := (sfs.Blocks * bSize) % 2 ^ 64
      ({ AvailSize := availSize, UsedSize := (allSize + 2 ^ 64 - availSize) % 2 ^ 64,
         AllSize := allSize }, none)

/-! ## File trees -/

mutual
/-- A finite file tree: a non-directory of a given size, a directory with its named
children in decode order, or a node whose classification fails with an error. -/
inductive Tree where
  | file (size : Int)
  | dir (kids : Forest)
  | broken (err : GoError)
/-- The named children of a directory, in decode order. -/
inductive Forest where
  | nil
  | cons (name : Name) (t : Tree) (rest : Forest)
end

mutual
/-- Sum of the sizes of the non-directory nodes of a tree. -/
def Tree.total : Tree → Int
  | .file size => size
  | .dir kids => kids.total
  | .broken _ => 0
/-- Sum of the sizes of the non-directory nodes of the trees of a forest. -/
def Forest.total : Forest → Int
  | .nil => 0
  | .cons _ t rest => t.total + rest.total
end

mutual
/-- The sizes of the non-directory nodes of a tree, in depth-first order. -/
def Tree.fileSizes : Tree → List Int
  | .file size => [size]
  | .dir kids => kids.fileSizes
  | .broken _ => []
/-- The sizes of the non-directory nodes of a forest, in depth-first order. -/
def Forest.fileSizes : Forest → List Int
  | .nil => []
  | .cons _ t rest => t.fileSizes ++ rest.fileSizes
end

mutual
/-- The number of nested `dirSize` calls a tree needs. -/
def Tree.depth : Tree → Nat
  | .file _ => 1
  | .dir kids => kids.depth + 1
  | .broken _ => 1
/-- The largest depth among the trees of a forest. -/
def Forest.depth : Forest → Nat
  | .nil => 0
  | .cons _ t rest => max t.depth rest.depth
end

mutual
/-- Every file size of the tree is a signed 64-bit value. -/
def Tree.sizesOk : Tree → Bool
  | .file size => decide (IsInt64 size)
  | .dir kids => kids.sizesOk
  | .broken _ => true
/-- Every file size of the forest is a signed 64-bit value. -/
def Forest.sizesOk : Forest → Bool
  | .nil => true
  | .cons _ t rest => t.sizesOk && rest.sizesOk
end

mutual
/-- The error of the first failing node of a tree in depth-first order, children taken
in decode order; `none` when no node fails. -/
def Tree.firstErr : Tree → Option GoError
  | .file _ => none
  | .dir kids => kids.firstErr
  | .broken err => some err
/-- The error of the first failing node of a forest. -/
def Forest.firstErr : Forest → Option GoError
  | .nil => none
  | .cons _ t rest =>
    match t.firstErr with
    | some err => some err
    | none => rest.firstErr
end

/-- The names of the children of a directory, in decode order. -/
def Forest.names : Forest → List Name
  | .nil => []
  | .cons name _ rest => name :: rest.names

/-- Sum of the sizes of the files under the children that precede the first child
holding a failing node (under all children when none fails). -/
def Forest.before : Forest → Int
  | .nil => 0
  | .cons _ t rest => if t.firstErr = none then t.total + rest.before else 0

mutual
/-- All nodes of a tree in depth-first order, children in decode order: the path of
each node and the error its classification fails with, if any. -/
def Tree.nodes {Path : Type} (join : Path → Name → Path) : Path → Tree →
    List (Path × Option GoError)
  | fp, .file _ => [(fp, none)]
  | fp, .dir kids => (fp, none) :: kids.nodes join fp
  | fp, .broken err => [(fp, some err)]
/-- All nodes of the trees of a forest whose parent directory is `fp`. -/
def Forest.nodes {Path : Type} (join : Path → Name → Path) : Path → Forest →
    List (Path × Option GoError)
  | _, .nil => []
  | fp, .cons name t rest => t.nodes join (join fp name) ++ rest.nodes join fp
end

/-- The nodes up to and including the first failing one. -/
def untilFailure {Path : Type} (l : List (Path × Option GoError)) : List Path :=
  (l.takeWhile (fun x => x.2.isNone)).map Prod.fst ++
    ((l.find? (fun x => x.2.isSome)).map Prod.fst).toList

/-- The error of the first failing node of a list of nodes. -/
def firstFailure {Path : Type} (l : List (Path × Option GoError)) : Option GoError :=
  (l.find? (fun x => x.2.isSome)).bind Prod.snd

mutual
/-- The answers `fc` of `fileCheck` are those of the tree `t` rooted at path `fp`: a
non-directory answers with its size, `dir = false` and a nil error; a directory with
the names of its children, size 0, `dir = true` and a nil error; a failing node with
its error and size 0. -/
def Tree.represents {Path : Type} (fc : Path → FileCheckResult) (join : Path → Name → Path) :
    Path → Tree → Bool
  | fp, .file size =>
    decide ((fc fp).err = none) && !(fc fp).dir && decide ((fc fp).size = size)
  | fp, .dir kids =>
    decide ((fc fp).err = none) && (fc fp).dir && decide ((fc fp).size = 0) &&
      decide ((fc fp).names = kids.names) && kids.represents fc join fp
  | fp, .broken err => decide ((fc fp).err = some err) && decide ((fc fp).size = 0)
/-- The answers `fc` are those of the children `kids` of the directory at `fp`. -/
def Forest.represents {Path : Type} (fc : Path → FileCheckResult)
    (join : Path → Name → Path) : Path → Forest → Bool
  | _, .nil => true
  | fp, .cons name t rest => t.represents fc join (join fp name) && rest.represents fc join fp
end

/-- The size `dirSize` reports for a tree, before wrap-around: the size of a
non-directory; for a directory the sum of the sizes of the files under the children
that precede the first child holding a failing node (under all its children when none
fails); 0 for a failing node. -/
def Tree.reported : Tree → Int
  | .file size => size
  | .dir kids => kids.before
  | .broken _ => 0

mutual
/-- The subtree of `t` at the relative path `p`. -/
def Tree.lookup : Tree → List Name → Option Tree
  | t, [] => some t
  | .dir kids, name :: p => kids.lookup name p
  | _, _ :: _ => none
/-- The subtree at path `p` below the child called `name`. -/
def Forest.lookup : Forest → Name → List Name → Option Tree
  | .nil, _, _ => none
  | .cons n t rest, name, p => if n = name then t.lookup p else rest.lookup name p
end

/-- The answers of `fileCheck` on the file system that holds exactly the tree `t`,
paths being lists of names below the root. -/
def Tree.check (t : Tree) (p : List Name) : FileCheckResult :=
  match t.lookup p with
  | some (.file size) => { names := [], size := size, dir := false, err := none }
  | some (.dir kids) => { names := kids.names, size := 0, dir := true, err := none }
  | some (.broken err) => { names := [], size := 0, dir := false, err := some err }
  | none => { names := [], size := 0, dir := false, err := some ⟨2⟩ }

/-- `path.Join` on paths kept as lists of names. -/
def joinNames (p : List Name) (name : Name) : List Name := p ++ [name]

/-! ## Sample data -/

/-- A 24-byte linux/amd64 record: one-byte inode `ino`, declared length 24, and the
five bytes of its name field. -/
def rec24 (ino : Byte) (n0 n1 n2 n3 n4 : Byte) : List Byte :=
  [ino, 0, 0, 0, 0, 0, 0, 0, 0, 0, 0, 0, 0, 0, 0, 0, 24, 0, 8, n0, n1, n2, n3, n4]

/-- A 32-byte linux/amd64 record: one-byte inode `ino`, declared length 32, and the
thirteen bytes `field` is padded or cut to. -/
def rec32 (ino : Byte) (field : List Byte) : List Byte :=
  [ino, 0, 0, 0, 0, 0, 0, 0, 0, 0, 0, 0, 0, 0, 0, 0, 32, 0, 8] ++
    (field ++ List.replicate 13 0).take 13

/-- The tree of the scenario: a directory holding file `a` of size 100 and directory
`b`, which holds file `c` of size 50. -/
def sampleTree : Tree :=
  .dir (.cons [97] (.file 100) (.cons [98] (.dir (.cons [99] (.file 50) .nil)) .nil))

/-- A directory holding two files of `2 ^ 62` bytes each. -/
def hugeTree : Tree :=
  .dir (.cons [97] (.file 4611686018427387904)
    (.cons [98] (.file 4611686018427387904) .nil))

/-- A directory holding file `a` of size 100, directory `b` whose only child `x` fails
to classify with error 5, and file `c` of size 7. -/
def failingTree : Tree :=
  .dir (.cons [97] (.file 100)
    (.cons [98] (.dir (.cons [120] (.broken ⟨5⟩) .nil)) (.cons [99] (.file 7) .nil)))

/-- An operating system in which every path opens as descriptor 3 with the given
metadata and every directory read returns `r`. -/
def constOS (st : Stat_t) (r : ReadResult) : OS Unit Unit :=
  { Open := fun _ s => ((3, none), s)
    Fstat := fun _ s => ((st, none), s)
    ReadDirent := fun _ _ s => (r, s)
    Close := fun _ s => s }

/-- The error `ENOTDIR`. -/
def ENOTDIR : GoError := ⟨20⟩

/-- The error `EIO`. -/
def EIO : GoError := ⟨5⟩

/-- A block-statistics call answering block size 4096, 1000 blocks, 200 available. -/
def sampleStatfs (_path : Unit) : Statfs_t × Option GoError :=
  ({ Bsize := 4096, Blocks := 1000, Bavail := 200 }, none)

/-- An operating system whose state is the list of the records of the one directory
not yet delivered, read through `dirRead`. -/
def dirOS : OS Unit (List (List Byte)) :=
  { Open := fun _ s => ((3, none), s)
    Fstat := fun _ s => (({ Mode := 0x41ED, Size := 4096 }, none), s)
    ReadDirent := dirRead
    Close := fun _ s => s }

/-- The read of a directory on a file system that hands over one record per read:
the state is the list of the records not yet delivered; the next record is delivered
whole when it fits in the `len` bytes offered, the read fails with `EINVAL` when it
does not, and returns 0 at the end of the directory. -/
def recordRead (_fd : Int) (len : Nat) (recs : List (List Byte)) :
    ReadResult × List (List Byte) :=
  match recs with
  | [] => ({ n := 0, err := none, data := [] }, [])
  | r :: rs =>
    if len < r.length then ({ n := -1, err := some EINVAL, data := [] }, r :: rs)
    else ({ n := (r.length : Nat), err := none, data := r }, rs)

/-- An operating system with one directory, read through `recordRead`. -/
def recordOS : OS Unit (List (List Byte)) :=
  { Open := fun _ s => ((3, none), s)
    Fstat := fun _ s => (({ Mode := 0x41ED, Size := 4096 }, none), s)
    ReadDirent := recordRead
    Close := fun _ s => s }

/-- A linux/amd64 record of 32760 bytes: inode 2, declared length `0x7FF8`, and a
name field of 32740 letters `b` and a zero byte. -/
def bigRecord : List Byte :=
  [2, 0, 0, 0, 0, 0, 0, 0, 0, 0, 0, 0, 0, 0, 0, 0, 0xF8, 0x7F, 8] ++
    (List.replicate 32740 98 ++ [0])

/-! # Theorems -/

/-! ## Slices inside the visible part -/

theorem slice_inside (v e : List Byte) (lo hi : Nat) (h1 : lo ≤ hi) (h2 : hi ≤ v.length) :
    Slice.slice ⟨v, e⟩ lo hi = some ⟨(v.drop lo).take (hi - lo), v.drop hi ++ e⟩ := by
  have hcap : hi ≤ (Slice.mk v e).cap := by simp [Slice.cap]; omega
  have hlo : lo ≤ v.length := by omega
  simp only [Slice.slice, h1, hcap, and_self, if_true]
  rw [List.drop_append_of_le_length hlo, List.drop_append_of_le_length h2,
    List.take_append_of_le_length (by simp; omega)]

theorem sliceFrom_outside (s : Slice) (lo : Nat) (h : s.len < lo) :
    s.sliceFrom lo = none := by
  simp [Slice.sliceFrom, Slice.slice]; omega

theorem Uint16_eq (l e : List Byte) (h : l.length = 2) : Uint16 ⟨l, e⟩ = some (leBytes l) := by
  match l, h with
  | [a, b], _ => simp [Uint16, leBytes]

theorem Uint64_eq (l e : List Byte) (h : l.length = 8) : Uint64 ⟨l, e⟩ = some (leBytes l) := by
  match l, h with
  | [a, b, c, d, f, g, i, j], _ => simp [Uint64, leBytes]

theorem untilZero_cons_zero (bs : List Byte) : untilZero ((0 : Byte) :: bs) = [] := by
  simp [untilZero]

theorem untilZero_cons_ne (b : Byte) (bs : List Byte) (hb : b ≠ 0) :
    untilZero (b :: bs) = b :: untilZero bs := by
  simp [untilZero, List.takeWhile_cons, hb]

theorem firstZero_scan (l : List Byte) :
    (match firstZero l with
      | some i => i < l.length ∧ l.take i = untilZero l
      | none => untilZero l = l) := by
  induction l with
  | nil => simp [firstZero, untilZero]
  | cons b bs ih =>
    by_cases hb : b = 0
    · subst hb
      simp [firstZero, untilZero_cons_zero]
    · simp only [firstZero, hb, if_false]
      rw [untilZero_cons_ne b bs hb]
      cases hz : firstZero bs with
      | none =>
        rw [hz] at ih
        simp only [Option.map_none']
        rw [ih]
      | some i =>
        rw [hz] at ih
        simp only [Option.map_some', List.length_cons, List.take_succ_cons]
        exact ⟨by omega, by rw [ih.2]⟩

theorem sliceFrom_inside (v e : List Byte) (lo : Nat) (h : lo ≤ v.length) :
    Slice.sliceFrom ⟨v, e⟩ lo = some ⟨v.drop lo, e⟩ := by
  simp only [Slice.sliceFrom, Slice.len]
  rw [slice_inside v e lo v.length h (le_refl _)]
  simp

theorem sliceTo_inside (v e : List Byte) (hi : Nat) (h : hi ≤ v.length) :
    Slice.sliceTo ⟨v, e⟩ hi = some ⟨v.take hi, v.drop hi ++ e⟩ := by
  simp only [Slice.sliceTo]
  rw [slice_inside v e 0 hi (Nat.zero_le _) h]
  simp

/-! ## The name decoded from a record -/

theorem decodeName_whole (L : Layout) (r e : List Byte) (h : L.NameOff ≤ r.length) :
    decodeName L ⟨r, e⟩ = some (windowName (nameField L r)) := by
  unfold decodeName
  rw [sliceFrom_inside r e _ h]
  simp only [Option.bind_eq_bind, Option.some_bind, Slice.len, nameField]
  generalize r.drop L.NameOff = f
  by_cases hlen : f.length ≤ 8
  · simp only [hlen, if_true, windowName]
    have hs := firstZero_scan f
    cases hz : firstZero f with
    | none => rw [hz] at hs; simp [hs]
    | some i =>
      rw [hz] at hs
      simp only
      rw [sliceTo_inside f e i (by omega)]
      simp [hs.2]
  · simp only [hlen, if_false, windowName]
    rw [sliceFrom_inside _ e _ (by omega)]
    simp only [Option.some_bind]
    have hs := firstZero_scan (f.drop (f.length - 8))
    cases hz : firstZero (f.drop (f.length - 8)) with
    | none => rw [hz] at hs; simp [hs]
    | some i =>
      rw [hz] at hs
      simp only
      have hi : f.length - 8 + i ≤ f.length := by
        have := hs.1
        simp at this
        omega
      rw [sliceTo_inside f e _ hi]
      simp only [Option.some_bind, Option.some.injEq]
      rw [← hs.2, List.take_add]

/-! ## One iteration on a whole record -/

theorem readRecLen_whole (L : Layout) (hL : L.Valid) (r tail e : List Byte)
    (hlen : L.RecOff + L.RecSize ≤ r.length) :
    (Slice.slice ⟨r ++ tail, e⟩ L.RecOff (L.RecOff + L.RecSize)).bind Uint16
      = some (declaredLen L r) := by
  obtain ⟨_, h2, _, _⟩ := hL
  rw [slice_inside (r ++ tail) e _ _ (Nat.le_add_right _ _) (by simp; omega)]
  simp only [Option.some_bind, Nat.add_sub_cancel_left]
  rw [List.drop_append_of_le_length (by omega), List.take_append_of_le_length (by simp; omega)]
  rw [Uint16_eq _ _ (by simp; omega)]
  rfl

theorem readIno_whole (L : Layout) (hL : L.Valid) (r e : List Byte)
    (hlen : L.NameOff ≤ r.length) :
    (Slice.slice ⟨r, e⟩ L.InoOff (L.InoOff + L.InoSize)).bind Uint64
      = some (inodeOf L r) := by
  obtain ⟨h1, _, h3, _⟩ := hL
  rw [slice_inside r e _ _ (Nat.le_add_right _ _) (by omega)]
  simp only [Option.some_bind, Nat.add_sub_cancel_left]
  rw [Uint64_eq _ _ (by simp; omega)]
  rfl

theorem parseDirentBody_whole (L : Layout) (hL : L.Valid) (r tail e : List Byte)
    (hr : Whole L r) (names : List Name) (n : Int) :
    parseDirentBody L ⟨r ++ tail, e⟩ names n
      = some (⟨tail, e⟩, afterRecord L r names n) := by
  obtain ⟨hd, hn, hh⟩ := hr
  unfold parseDirentBody
  rw [readRecLen_whole L hL r tail e (by omega), hd]
  simp only [Option.bind_eq_bind, Option.some_bind]
  rw [sliceTo_inside (r ++ tail) e r.length (by simp),
    sliceFrom_inside (r ++ tail) e r.length (by simp)]
  simp only [Option.some_bind, List.take_left', List.drop_left', List.append_assoc]
  rw [readIno_whole L hL r (tail ++ e) hn]
  simp only [Option.some_bind, afterRecord]
  by_cases hi : inodeOf L r = 0
  · simp [hi]
  · simp only [hi, if_false]
    rw [decodeName_whole L r (tail ++ e) hn]
    simp only [Option.some_bind, isPseudo]
    by_cases hp : windowName (nameField L r) = dot ∨ windowName (nameField L r) = dotdot
    · simp [hp]
    · simp [hp]

/-! ## Budget arithmetic -/

theorem wrapInt64_isInt64 (x : Int) : IsInt64 (wrapInt64 x) := by
  unfold IsInt64 wrapInt64; omega

theorem wrapInt64_of_isInt64 (n : Int) (h : IsInt64 n) : wrapInt64 n = n := by
  unfold IsInt64 at h; unfold wrapInt64; omega

theorem credit_eq_zero (n : Int) (h : IsInt64 n) : credit n = 0 ↔ n = 0 := by
  unfold IsInt64 at h; unfold credit; omega

theorem credit_dec (n : Int) (h : IsInt64 n) (h0 : n ≠ 0) :
    credit (wrapInt64 (n - 1)) + 1 = credit n := by
  unfold IsInt64 at h; unfold credit wrapInt64; omega

theorem credit_nonneg (n : Int) (h : IsInt64 n) (h0 : 0 ≤ n) : credit n = n.toNat := by
  unfold IsInt64 at h; unfold credit; omega

theorem credit_neg (n : Int) (h : IsInt64 n) (h0 : n < 0) : 2 ^ 63 ≤ credit n := by
  unfold IsInt64 at h; unfold credit; omega

theorem wrapInt64_sub_succ (n : Int) (k : Nat) :
    wrapInt64 (wrapInt64 (n - 1) - (k : Int)) = wrapInt64 (n - ((k + 1 : Nat) : Int)) := by
  unfold wrapInt64; omega

/-! ## The loop on a run of whole records -/

theorem windowNames_cons (L : Layout) (r : List Byte) (rs : List (List Byte)) :
    windowNames L (r :: rs)
      = (if inodeOf L r = 0 then []
          else if isPseudo (windowName (nameField L r)) then []
          else [windowName (nameField L r)]) ++ windowNames L rs := by
  unfold windowNames
  by_cases hi : inodeOf L r = 0
  · simp [hi]
  · by_cases hp : isPseudo (windowName (nameField L r)) = true
    · simp [hi, hp, List.filter_cons]
    · simp [hi, hp, List.filter_cons]

theorem parseDirent_budget_zero (L : Layout) (fuel : Nat) (buf : Slice) (names : List Name) :
    parseDirent L fuel buf names 0 = .ret (names, none) := by
  cases fuel <;> simp [parseDirent, loopCond]

theorem parseDirent_short (L : Layout) (fuel : Nat) (buf : Slice) (names : List Name)
    (n : Int) (h : buf.len ≤ L.RecOff + L.RecSize) :
    parseDirent L fuel buf names n = .ret (names, none) := by
  have : ¬ (buf.len > L.RecOff + L.RecSize) := by omega
  cases fuel <;> simp [parseDirent, loopCond, this]

/-- Decoding a run of whole records followed by `tail`: either the budget runs out
inside the run, or decoding goes on with `tail`. -/
theorem parseDirent_whole_append (L : Layout) (hL : L.Valid) (recs : List (List Byte))
    (hrecs : ∀ r ∈ recs, Whole L r) (tail e : List Byte) (fuel : Nat)
    (names : List Name) (n : Int) (hn : IsInt64 n) :
    parseDirent L (recs.length + fuel) ⟨recs.flatten ++ tail, e⟩ names n
      = if (windowNames L recs).length < credit n then
          parseDirent L fuel ⟨tail, e⟩ (names ++ windowNames L recs)
            (wrapInt64 (n - ((windowNames L recs).length : Nat)))
        else .ret (names ++ (windowNames L recs).take (credit n), none) := by
  induction recs generalizing names n with
  | nil =>
    by_cases h0 : n = 0
    · subst h0
      simp [windowNames, credit, parseDirent_budget_zero]
    · have : 0 < credit n := by
        rcases Nat.eq_zero_or_pos (credit n) with h | h
        · exact absurd ((credit_eq_zero n hn).1 h) h0
        · exact h
      simp [windowNames, this, wrapInt64_of_isInt64 n hn]
  | cons r rs ih =>
    have hr : Whole L r := hrecs r (List.mem_cons_self _ _)
    have hrs : ∀ x ∈ rs, Whole L x := fun x hx => hrecs x (List.mem_cons_of_mem _ hx)
    by_cases h0 : n = 0
    · subst h0
      simp [credit, parseDirent_budget_zero]
    · have hc : loopCond L ⟨(r :: rs).flatten ++ tail, e⟩ n = true := by
        have := hr.2.2
        simp [loopCond, Slice.len, h0]
        omega
      have hfuel : (r :: rs).length + fuel = (rs.length + fuel) + 1 := by
        simp; omega
      rw [hfuel, parseDirent]
      simp only [hc, if_true]
      have hflat : (r :: rs).flatten ++ tail = r ++ (rs.flatten ++ tail) := by simp
      rw [hflat, parseDirentBody_whole L hL r _ e hr names n]
      simp only
      rw [windowNames_cons]
      unfold afterRecord
      by_cases hi : inodeOf L r = 0
      · simp only [hi, if_true, List.nil_append]
        exact ih hrs names n hn
      · by_cases hp : isPseudo (windowName (nameField L r)) = true
        · simp only [hi, hp, if_true, if_false, List.nil_append]
          exact ih hrs names n hn
        · simp only [hi, hp, if_false, Bool.false_eq_true]
          rw [ih hrs _ _ (wrapInt64_isInt64 _)]
          have hd := credit_dec n hn h0
          simp only [List.singleton_append, List.length_cons, List.append_assoc]
          rw [← hd, wrapInt64_sub_succ]
          simp only [Nat.add_lt_add_iff_right, List.take_succ_cons]

theorem parseDirent_whole (L : Layout) (hL : L.Valid) (recs : List (List Byte))
    (hrecs : ∀ r ∈ recs, Whole L r) (e : List Byte) (fuel : Nat) (hfuel : recs.length ≤ fuel)
    (names : List Name) (n : Int) (hn : IsInt64 n) :
    parseDirent L fuel ⟨recs.flatten, e⟩ names n
      = .ret (names ++ (windowNames L recs).take (credit n), none) := by
  obtain ⟨k, rfl⟩ := Nat.exists_eq_add_of_le hfuel
  have h := parseDirent_whole_append L hL recs hrecs [] e k names n hn
  rw [List.append_nil] at h
  rw [h]
  split
  · rename_i hlt
    rw [parseDirent_short L k ⟨[], e⟩ _ _ (by simp [Slice.len])]
    rw [List.take_of_length_le (by omega)]
  · rfl

/-! ## Well-formed records -/

theorem wellFormed_whole (L : Layout) (hL : L.Valid) (r : List Byte) (h : WellFormed L r) :
    Whole L r := by
  obtain ⟨_, _, _, h4⟩ := hL
  obtain ⟨hd, hn, _, _⟩ := h
  exact ⟨hd, by omega, by omega⟩

theorem untilZero_split (f : List Byte) (k : Nat) (hk : k ≤ (untilZero f).length) :
    f.take k ++ untilZero (f.drop k) = untilZero f := by
  induction f generalizing k with
  | nil => simp [untilZero]
  | cons b bs ih =>
    cases k with
    | zero => simp
    | succ k =>
      by_cases hb : b = 0
      · subst hb
        rw [untilZero_cons_zero] at hk
        simp at hk
      · rw [untilZero_cons_ne b bs hb] at hk ⊢
        simp only [List.length_cons, Nat.add_le_add_iff_right] at hk
        simp only [List.take_succ_cons, List.drop_succ_cons, List.cons_append, ih k hk]

theorem windowName_eq_untilZero (f : List Byte)
    (h : f.length ≤ 8 ∨ f.length - 8 ≤ (untilZero f).length) :
    windowName f = untilZero f := by
  unfold windowName
  by_cases hlen : f.length ≤ 8
  · simp [hlen]
  · simp only [hlen, if_false]
    rcases h with h | h
    · exact absurd h hlen
    · exact untilZero_split f _ h

theorem windowName_wellFormed (L : Layout) (r : List Byte) (h : WellFormed L r) :
    windowName (nameField L r) = nameOf L r :=
  windowName_eq_untilZero _ h.2.2.2

theorem windowNames_eq_liveNames (L : Layout) (recs : List (List Byte))
    (h : ∀ r ∈ recs, WellFormed L r) : windowNames L recs = liveNames L recs := by
  unfold windowNames liveNames
  congr 1
  apply List.map_congr_left
  intro r hr
  exact windowName_wellFormed L r (h r (List.mem_of_mem_filter hr))

theorem windowNames_length_le (L : Layout) (recs : List (List Byte)) :
    (windowNames L recs).length ≤ recs.length := by
  unfold windowNames
  calc _ ≤ ((recs.filter (fun r => decide (inodeOf L r ≠ 0))).map
              (fun r => windowName (nameField L r))).length := List.length_filter_le _ _
    _ = (recs.filter (fun r => decide (inodeOf L r ≠ 0))).length := List.length_map _ _
    _ ≤ recs.length := List.length_filter_le _ _

theorem length_le_flatten (recs : List (List Byte)) (h : ∀ r ∈ recs, 1 ≤ r.length) :
    recs.length ≤ recs.flatten.length := by
  induction recs with
  | nil => simp
  | cons r rs ih =>
    have h1 := h r (List.mem_cons_self _ _)
    have h2 := ih (fun x hx => h x (List.mem_cons_of_mem _ hx))
    simp only [List.flatten_cons, List.length_cons, List.length_append]
    omega

theorem not_pseudo_of_mem_windowNames (L : Layout) (recs : List (List Byte)) (x : Name)
    (hx : x ∈ windowNames L recs) : x ≠ dot ∧ x ≠ dotdot := by
  unfold windowNames at hx
  have := (List.mem_filter.1 hx).2
  simpa [isPseudo, not_or] using this

/-- With a negative budget and a buffer shorter than `2 ^ 63` bytes the budget never
reads zero inside a run of whole records. -/
theorem windowNames_lt_credit (L : Layout) (recs : List (List Byte))
    (hrecs : ∀ r ∈ recs, Whole L r) (hlen : recs.flatten.length < 2 ^ 63)
    (n : Int) (hn : IsInt64 n) (hneg : n < 0) :
    (windowNames L recs).length < credit n := by
  have h1 := windowNames_length_le L recs
  have h2 := length_le_flatten recs (fun r hr => by have := (hrecs r hr).2.2; omega)
  have h3 := credit_neg n hn hneg
  omega


/-! ## Claims about `parseDirent` -/

/-- C1: on a buffer (of fewer than `2 ^ 63` bytes, as every Go slice is) that is a
concatenation of well-formed records, `parseDirent` called with an empty name list
and a negative budget returns a nil error and exactly the names of the records whose
inode is nonzero and whose name is neither `"."` nor `".."`, in buffer order. -/
theorem parseDirent_wellFormed_names (L : Layout) (hL : L.Valid) (recs : List (List Byte))
    (hwf : ∀ r ∈ recs, WellFormed L r) (e : List Byte)
    (hlen : recs.flatten.length < 2 ^ 63)
    (n : Int) (hn : IsInt64 n) (hneg : n < 0) (fuel : Nat) (hfuel : recs.length ≤ fuel) :
    parseDirent L fuel ⟨recs.flatten, e⟩ [] n = .ret (liveNames L recs, none) := by
  have hw : ∀ r ∈ recs, Whole L r := fun r hr => wellFormed_whole L hL r (hwf r hr)
  rw [parseDirent_whole L hL recs hw e fuel hfuel [] n hn]
  have hc := windowNames_lt_credit L recs hw hlen n hn hneg
  rw [List.take_of_length_le (by omega), windowNames_eq_liveNames L recs hwf]
  rfl

/-- C1 on four linux/amd64 records: `"."`, `"ab"`, a zero-inode record and an eight-letter name. -/
theorem parseDirent_wellFormed_names_witness :
    parseDirent linuxAmd64 4
        ⟨[rec24 1 46 0 0 0 0, rec24 1 97 98 0 0 0, rec24 0 99 0 0 0 0,
          rec32 2 [100, 101, 102, 103, 104, 105, 106, 107]].flatten, []⟩ [] (-1)
      = .ret ([[97, 98], [100, 101, 102, 103, 104, 105, 106, 107]], none) :=
  parseDirent_wellFormed_names linuxAmd64 (by decide)
    [rec24 1 46 0 0 0 0, rec24 1 97 98 0 0 0, rec24 0 99 0 0 0 0,
      rec32 2 [100, 101, 102, 103, 104, 105, 106, 107]]
    (by decide) [] (by decide) (-1) (by decide) (by decide) 4 (by decide)

/-- C2, as the code has it: the name decoded from a record that reaches the name
offset is the part of its name field before the first zero byte found in the last
eight bytes of the field (in the whole field when it has at most eight bytes); it is
the part before the first zero byte of the field whenever the field has at most
eight bytes or its first zero byte lies in its last eight bytes. -/
theorem decodeName_window (L : Layout) (r e : List Byte) (hlen : L.NameOff ≤ r.length) :
    decodeName L ⟨r, e⟩ = some (windowName (nameField L r)) ∧
      (((nameField L r).length ≤ 8 ∨ (nameField L r).length - 8 ≤ (nameOf L r).length) →
        decodeName L ⟨r, e⟩ = some (nameOf L r)) := by
  refine ⟨decodeName_whole L r e hlen, fun h => ?_⟩
  rw [decodeName_whole L r e hlen, windowName_eq_untilZero _ h]
  rfl

/-- C2 on a 32-byte record whose name `"abcdef"` ends within the last eight bytes of its field. -/
theorem decodeName_window_witness :
    decodeName linuxAmd64 ⟨rec32 7 [97, 98, 99, 100, 101, 102, 0, 0, 0, 0, 0, 0, 0], []⟩
      = some [97, 98, 99, 100, 101, 102] :=
  (decodeName_window linuxAmd64 (rec32 7 [97, 98, 99, 100, 101, 102, 0, 0, 0, 0, 0, 0, 0]) []
    (by decide)).2 (by decide)

/-- C2, refuted as stated: a 32-byte record with inode 1 whose 13-byte name field is
`a`, a zero byte, ten `b` and a zero byte. The field holds a zero byte at index 1, yet
the decoded name is the twelve bytes before the zero byte at index 12. -/
theorem decodeName_not_first_zero :
    inodeOf linuxAmd64 (rec32 1 [97, 0, 98, 98, 98, 98, 98, 98, 98, 98, 98, 98, 0]) ≠ 0 ∧
    (0 : Byte) ∈ nameField linuxAmd64 (rec32 1 [97, 0, 98, 98, 98, 98, 98, 98, 98, 98, 98, 98, 0]) ∧
    nameOf linuxAmd64 (rec32 1 [97, 0, 98, 98, 98, 98, 98, 98, 98, 98, 98, 98, 0]) = [97] ∧
    decodeName linuxAmd64 ⟨rec32 1 [97, 0, 98, 98, 98, 98, 98, 98, 98, 98, 98, 98, 0], []⟩
      = some [97, 0, 98, 98, 98, 98, 98, 98, 98, 98, 98, 98] ∧
    parseDirent linuxAmd64 1
        ⟨rec32 1 [97, 0, 98, 98, 98, 98, 98, 98, 98, 98, 98, 98, 0], []⟩ [] (-1)
      = .ret ([[97, 0, 98, 98, 98, 98, 98, 98, 98, 98, 98, 98]], none) := by
  decide

/-- C3: on a buffer of whole records, for every initial name list and every budget,
`parseDirent` returns the initial list followed by appended names none of which is
`"."` or `".."`. -/
theorem parseDirent_appends_no_pseudo (L : Layout) (hL : L.Valid) (recs : List (List Byte))
    (hrecs : ∀ r ∈ recs, Whole L r) (e : List Byte) (names : List Name)
    (n : Int) (hn : IsInt64 n) (fuel : Nat) (hfuel : recs.length ≤ fuel) :
    parseDirent L fuel ⟨recs.flatten, e⟩ names n
        = .ret (names ++ (windowNames L recs).take (credit n), none) ∧
      dot ∉ (windowNames L recs).take (credit n) ∧
      dotdot ∉ (windowNames L recs).take (credit n) := by
  refine ⟨parseDirent_whole L hL recs hrecs e fuel hfuel names n hn, ?_, ?_⟩
  · intro h
    exact (not_pseudo_of_mem_windowNames L recs dot (List.mem_of_mem_take h)).1 rfl
  · intro h
    exact (not_pseudo_of_mem_windowNames L recs dotdot (List.mem_of_mem_take h)).2 rfl

/-- C3 on the records `"."`, `"ab"`, `".."` and `"..."` with budget 5. -/
theorem parseDirent_appends_no_pseudo_witness :
    parseDirent linuxAmd64 4
        ⟨[rec24 1 46 0 0 0 0, rec24 1 97 98 0 0 0, rec24 3 46 46 0 0 0,
          rec24 2 46 46 46 0 0].flatten, []⟩ [[46]] 5
      = .ret ([[46], [97, 98], [46, 46, 46]], none) :=
  (parseDirent_appends_no_pseudo linuxAmd64 (by decide)
    [rec24 1 46 0 0 0 0, rec24 1 97 98 0 0 0, rec24 3 46 46 0 0 0, rec24 2 46 46 46 0 0]
    (by decide) [] [[46]] 5 (by decide) 4 (by decide)).1

/-- C4: on a buffer of whole well-formed records (fewer than `2 ^ 63` bytes), a
negative budget appends every accepted name, and a budget `N ≥ 0` appends exactly the
first `N` of those names (all of them when there are fewer), so at most `N` names. -/
theorem parseDirent_budget (L : Layout) (hL : L.Valid) (recs : List (List Byte))
    (hwf : ∀ r ∈ recs, WellFormed L r) (e : List Byte)
    (hlen : recs.flatten.length < 2 ^ 63) (names : List Name)
    (N : Int) (hN : IsInt64 N) (hN0 : 0 ≤ N) (m : Int) (hm : IsInt64 m) (hneg : m < 0)
    (fuel : Nat) (hfuel : recs.length ≤ fuel) :
    parseDirent L fuel ⟨recs.flatten, e⟩ names m = .ret (names ++ liveNames L recs, none) ∧
      parseDirent L fuel ⟨recs.flatten, e⟩ names N
        = .ret (names ++ (liveNames L recs).take N.toNat, none) ∧
      ((liveNames L recs).take N.toNat).length ≤ N.toNat := by
  have hw : ∀ r ∈ recs, Whole L r := fun r hr => wellFormed_whole L hL r (hwf r hr)
  have hc := windowNames_lt_credit L recs hw hlen m hm hneg
  refine ⟨?_, ?_, ?_⟩
  · rw [parseDirent_whole L hL recs hw e fuel hfuel names m hm,
      List.take_of_length_le (by omega), windowNames_eq_liveNames L recs hwf]
  · rw [parseDirent_whole L hL recs hw e fuel hfuel names N hN,
      windowNames_eq_liveNames L recs hwf, credit_nonneg N hN hN0]
  · rw [List.length_take]
    exact Nat.min_le_left _ _

/-- C4 on the records `"a"`, `"b"`, `"."`, `"c"` with budget 2. -/
theorem parseDirent_budget_witness :
    parseDirent linuxAmd64 4
        ⟨[rec24 1 97 0 0 0 0, rec24 1 98 0 0 0 0, rec24 1 46 0 0 0 0,
          rec24 1 99 0 0 0 0].flatten, []⟩ [[120]] 2
      = .ret ([[120], [97], [98]], none) :=
  (parseDirent_budget linuxAmd64 (by decide)
    [rec24 1 97 0 0 0 0, rec24 1 98 0 0 0 0, rec24 1 46 0 0 0 0, rec24 1 99 0 0 0 0]
    (by decide) [] (by decide) [[120]] 2 (by decide) (by decide) (-1) (by decide) (by decide)
    4 (by decide)).2.1

theorem liveNames_filter (L : Layout) (recs : List (List Byte)) :
    liveNames L (recs.filter (fun r => decide (inodeOf L r ≠ 0))) = liveNames L recs := by
  unfold liveNames
  rw [List.filter_filter]
  simp

/-- C5: on a buffer of whole well-formed records, for every budget, `parseDirent`
returns the same name list as on the buffer from which every zero-inode record has
been deleted. -/
theorem parseDirent_skips_zero_inode (L : Layout) (hL : L.Valid) (recs : List (List Byte))
    (hwf : ∀ r ∈ recs, WellFormed L r) (e e2 : List Byte) (names : List Name)
    (n : Int) (hn : IsInt64 n) (fuel : Nat) (hfuel : recs.length ≤ fuel) (fuel2 : Nat)
    (hfuel2 : (recs.filter (fun r => decide (inodeOf L r ≠ 0))).length ≤ fuel2) :
    parseDirent L fuel ⟨recs.flatten, e⟩ names n
        = .ret (names ++ (liveNames L recs).take (credit n), none) ∧
      parseDirent L fuel2
          ⟨(recs.filter (fun r => decide (inodeOf L r ≠ 0))).flatten, e2⟩ names n
        = .ret (names ++ (liveNames L recs).take (credit n), none) := by
  have hw : ∀ r ∈ recs, Whole L r := fun r hr => wellFormed_whole L hL r (hwf r hr)
  have hwf2 : ∀ r ∈ recs.filter (fun r => decide (inodeOf L r ≠ 0)), WellFormed L r :=
    fun r hr => hwf r (List.mem_of_mem_filter hr)
  have hw2 : ∀ r ∈ recs.filter (fun r => decide (inodeOf L r ≠ 0)), Whole L r :=
    fun r hr => hw r (List.mem_of_mem_filter hr)
  constructor
  · rw [parseDirent_whole L hL recs hw e fuel hfuel names n hn,
      windowNames_eq_liveNames L recs hwf]
  · rw [parseDirent_whole L hL _ hw2 e2 fuel2 hfuel2 names n hn,
      windowNames_eq_liveNames L _ hwf2, liveNames_filter]

/-- C5 on two live records interleaved with two zero-inode records, with budget 2. -/
theorem parseDirent_skips_zero_inode_witness :
    parseDirent linuxAmd64 4
        ⟨[rec24 0 120 0 0 0 0, rec24 1 97 0 0 0 0, rec24 0 121 0 0 0 0,
          rec24 1 98 0 0 0 0].flatten, []⟩ [] 2
        = .ret ([[97], [98]], none) ∧
      parseDirent linuxAmd64 2
        ⟨[rec24 1 97 0 0 0 0, rec24 1 98 0 0 0 0].flatten, []⟩ [] 2
        = .ret ([[97], [98]], none) :=
  parseDirent_skips_zero_inode linuxAmd64 (by decide)
    [rec24 0 120 0 0 0 0, rec24 1 97 0 0 0 0, rec24 0 121 0 0 0 0, rec24 1 98 0 0 0 0]
    (by decide) [] [] [] 2 (by decide) 4 (by decide) 2 (by decide)

theorem windowName_ne_nil (f : List Byte) (h : StartsNonzero f) : windowName f ≠ [] := by
  cases f with
  | nil => exact absurd h (by simp [StartsNonzero])
  | cons b t =>
    have hb : b ≠ 0 := h
    unfold windowName
    by_cases hlen : (b :: t).length ≤ 8
    · simp only [hlen, if_true]
      rw [untilZero_cons_ne b t hb]
      simp
    · simp only [hlen, if_false]
      have : 0 < (b :: t).length - 8 := by omega
      intro hnil
      have hl := congrArg List.length hnil
      simp only [List.length_append, List.length_take, List.length_nil] at hl
      omega

theorem windowName_ne_nil_of_long (f : List Byte) (h : 8 < f.length) : windowName f ≠ [] := by
  unfold windowName
  have hlen : ¬ f.length ≤ 8 := by omega
  simp only [hlen, if_false]
  intro hnil
  have hl := congrArg List.length hnil
  simp only [List.length_append, List.length_take, List.length_nil] at hl
  omega

/-- The decoded name is empty exactly when the name field has at most eight bytes and
is empty or begins with a zero byte. -/
theorem windowName_eq_nil_iff (f : List Byte) :
    windowName f = [] ↔ f.length ≤ 8 ∧ ¬ StartsNonzero f := by
  constructor
  · intro h
    refine ⟨?_, fun hs => windowName_ne_nil f hs h⟩
    by_contra hlen
    exact windowName_ne_nil_of_long f (by omega) h
  · intro ⟨hlen, hs⟩
    unfold windowName
    simp only [hlen, if_true]
    cases f with
    | nil => simp [untilZero]
    | cons b t =>
      have hb : b = 0 := by
        by_contra hb
        exact hs hb
      subst hb
      exact untilZero_cons_zero t

/-- C6, as the code has it: on a buffer of whole records in which the name field of
every record with a nonzero inode is longer than eight bytes or begins with a nonzero
byte, every name `parseDirent` appends is non-empty, for every budget; and a whole
record `r0` with a nonzero inode whose name field has at most eight bytes and is empty
or begins with a zero byte is decoded to the empty name, which `parseDirent` appends
when the budget is not zero. -/
theorem parseDirent_appends_nonempty (L : Layout) (hL : L.Valid) (recs : List (List Byte))
    (hrecs : ∀ r ∈ recs, Whole L r)
    (hname : ∀ r ∈ recs, inodeOf L r ≠ 0 →
      8 < (nameField L r).length ∨ StartsNonzero (nameField L r))
    (e : List Byte) (names : List Name)
    (n : Int) (hn : IsInt64 n) (fuel : Nat) (hfuel : recs.length ≤ fuel)
    (r0 : List Byte) (fuel0 : Nat) :
    parseDirent L fuel ⟨recs.flatten, e⟩ names n
        = .ret (names ++ (windowNames L recs).take (credit n), none) ∧
      [] ∉ (windowNames L recs).take (credit n) ∧
      (Whole L r0 → inodeOf L r0 ≠ 0 → (nameField L r0).length ≤ 8 →
        ¬ StartsNonzero (nameField L r0) → n ≠ 0 →
        parseDirent L (fuel0 + 1) ⟨r0, e⟩ names n = .ret (names ++ [[]], none)) := by
  refine ⟨parseDirent_whole L hL recs hrecs e fuel hfuel names n hn, ?_, ?_⟩
  · intro h
    have h1 := List.mem_of_mem_take h
    unfold windowNames at h1
    have h2 := (List.mem_filter.1 h1).1
    obtain ⟨r, hr, hr2⟩ := List.mem_map.1 h2
    have h3 := List.mem_filter.1 hr
    have hino : inodeOf L r ≠ 0 := by simpa using h3.2
    rcases hname r h3.1 hino with hlong | hstart
    · exact windowName_ne_nil_of_long _ hlong hr2
    · exact windowName_ne_nil _ hstart hr2
  · intro hw hino hlen hs hn0
    have hnil : windowName (nameField L r0) = [] := (windowName_eq_nil_iff _).2 ⟨hlen, hs⟩
    have hall : ∀ r ∈ [r0], Whole L r := by
      intro r hr
      rw [List.mem_singleton.1 hr]
      exact hw
    have h := parseDirent_whole L hL [r0] hall e (fuel0 + 1) (by simp) names n hn
    have hwn : windowNames L [r0] = [[]] := by
      rw [windowNames_cons, hnil]
      simp [hino, isPseudo, dot, dotdot, windowNames]
    have hc : 0 < credit n := by
      rcases Nat.eq_zero_or_pos (credit n) with h0 | h0
      · exact absurd ((credit_eq_zero n hn).1 h0) hn0
      · exact h0
    simp only [List.flatten_cons, List.flatten_nil, List.append_nil] at h
    rw [h, hwn, List.take_of_length_le (by simp; omega)]

/-- C6 on the record `"a"` and a record whose 13-byte name field begins with a zero
byte, and on a record whose 5-byte name field begins with a zero byte. -/
theorem parseDirent_appends_nonempty_witness :
    parseDirent linuxAmd64 2
        ⟨[rec24 1 97 0 0 0 0,
          rec32 1 [0, 98, 98, 98, 98, 98, 98, 98, 98, 98, 98, 98, 0]].flatten, []⟩ [] (-1)
      = .ret ([[97], [0, 98, 98, 98, 98, 98, 98, 98, 98, 98, 98, 98]], none) ∧
    parseDirent linuxAmd64 (0 + 1) ⟨rec24 1 0 0 0 0 0, []⟩ [] (-1) = .ret ([] ++ [[]], none) :=
  have h := parseDirent_appends_nonempty linuxAmd64 (by decide)
    [rec24 1 97 0 0 0 0, rec32 1 [0, 98, 98, 98, 98, 98, 98, 98, 98, 98, 98, 98, 0]]
    (by decide) (by decide) [] [] (-1) (by decide) 2 (by decide) (rec24 1 0 0 0 0 0) 0
  ⟨h.1, h.2.2 (by decide) (by decide) (by decide) (by decide) (by decide)⟩

/-- C6, refuted as stated: a whole (and well-formed) record with inode 1 whose
five-byte name field begins with a zero byte makes `parseDirent` append the empty
name. -/
theorem parseDirent_appends_empty_name :
    WellFormed linuxAmd64 (rec24 1 0 0 0 0 0) ∧ Whole linuxAmd64 (rec24 1 0 0 0 0 0) ∧
      parseDirent linuxAmd64 1 ⟨rec24 1 0 0 0 0 0, []⟩ [] (-1) = .ret ([[]], none) := by
  decide

/-! ## Malformed records -/

theorem parseDirent_error_nil (L : Layout) (fuel : Nat) (buf : Slice) (names : List Name)
    (n : Int) (out : List Name) (err : Option GoError)
    (h : parseDirent L fuel buf names n = .ret (out, err)) : err = none := by
  induction fuel generalizing buf names n with
  | zero =>
    unfold parseDirent at h
    split at h
    · cases h
    · cases h; rfl
  | succ k ih =>
    unfold parseDirent at h
    split at h
    · split at h
      · cases h
      · exact ih _ _ _ h
    · cases h; rfl

theorem parseDirentBody_overlong (L : Layout) (hL : L.Valid) (bad e : List Byte)
    (hhdr : L.RecOff + L.RecSize < bad.length) (hlong : bad.length < declaredLen L bad)
    (names : List Name) (n : Int) :
    parseDirentBody L ⟨bad, e⟩ names n = none := by
  have h := readRecLen_whole L hL bad [] e (by omega)
  rw [List.append_nil] at h
  unfold parseDirentBody
  rw [h]
  simp only [Option.bind_eq_bind, Option.some_bind]
  rw [sliceFrom_outside ⟨bad, e⟩ _ (by simpa [Slice.len] using hlong)]
  cases Slice.sliceTo ⟨bad, e⟩ (declaredLen L bad) <;> simp

theorem wrapInt64_sub_ne_zero (n : Int) (k : Nat) (hk : k < credit n) :
    wrapInt64 (n - (k : Int)) ≠ 0 := by
  unfold credit at hk
  unfold wrapInt64
  omega

theorem untilZero_eq_self (f : List Byte) (h : (0 : Byte) ∉ f) : untilZero f = f := by
  induction f with
  | nil => simp [untilZero]
  | cons b t ih =>
    have hb : b ≠ 0 := fun hb => h (by simp [hb])
    rw [untilZero_cons_ne b t hb, ih (fun ht => h (List.mem_cons_of_mem _ ht))]

theorem windowName_eq_self (f : List Byte) (h : (0 : Byte) ∉ f) : windowName f = f := by
  rw [windowName_eq_untilZero f (Or.inr (by rw [untilZero_eq_self f h]; omega)),
    untilZero_eq_self f h]

theorem windowNames_append_singleton (L : Layout) (recs : List (List Byte)) (r : List Byte)
    (hino : inodeOf L r ≠ 0) (hp : isPseudo (windowName (nameField L r)) = false) :
    windowNames L (recs ++ [r]) = windowNames L recs ++ [windowName (nameField L r)] := by
  unfold windowNames
  simp [List.filter_append, hino, hp, List.filter_cons]

/-- C7, as the code has it: `parseDirent` never returns a non-nil error. When decoding
reaches, after a run of whole records that leaves budget, a record whose header is
present but whose declared length exceeds the bytes remaining, the call panics on the
slice expression; a whole record with a nonzero inode whose name field holds no zero
byte is decoded with its whole name field as its name, and the call returns a nil
error. -/
theorem parseDirent_malformed (L : Layout) (hL : L.Valid) (recs : List (List Byte))
    (hrecs : ∀ r ∈ recs, Whole L r) (bad e : List Byte) (names : List Name)
    (n : Int) (hn : IsInt64 n) (hbudget : (windowNames L recs).length < credit n)
    (fuel : Nat) :
    (∀ k buf ns m out err, parseDirent L k buf ns m = .ret (out, err) → err = none) ∧
      (L.RecOff + L.RecSize < bad.length → bad.length < declaredLen L bad →
        parseDirent L (recs.length + (fuel + 1)) ⟨recs.flatten ++ bad, e⟩ names n = .panic) ∧
      (Whole L bad → inodeOf L bad ≠ 0 → (0 : Byte) ∉ nameField L bad →
        isPseudo (nameField L bad) = false →
        parseDirent L (recs.length + (fuel + 1)) ⟨recs.flatten ++ bad, e⟩ names n
          = .ret (names ++ (windowNames L recs ++ [nameField L bad]), none)) := by
  refine ⟨fun k buf ns m out err h => parseDirent_error_nil L k buf ns m out err h, ?_, ?_⟩
  · intro hhdr hlong
    rw [parseDirent_whole_append L hL recs hrecs bad e (fuel + 1) names n hn]
    simp only [hbudget, if_true]
    have hne := wrapInt64_sub_ne_zero n _ hbudget
    have hc : loopCond L ⟨bad, e⟩
        (wrapInt64 (n - ((windowNames L recs).length : Nat))) = true := by
      simp [loopCond, Slice.len, hne]
      omega
    rw [parseDirent]
    simp only [hc, if_true]
    rw [parseDirentBody_overlong L hL bad e hhdr hlong]
  · intro hw hino hz hp
    have hwn : windowName (nameField L bad) = nameField L bad := windowName_eq_self _ hz
    have hall : ∀ r ∈ recs ++ [bad], Whole L r := by
      intro r hr
      rcases List.mem_append.1 hr with h | h
      · exact hrecs r h
      · rw [List.mem_singleton.1 h]; exact hw
    have h := parseDirent_whole L hL (recs ++ [bad]) hall e (recs.length + (fuel + 1))
      (by simp) names n hn
    rw [List.flatten_append] at h
    simp only [List.flatten_cons, List.flatten_nil, List.append_nil] at h
    rw [h, windowNames_append_singleton L recs bad hino (by rw [hwn]; exact hp), hwn,
      List.take_of_length_le (by simp; omega)]

/-- C7 on a whole record followed by a record cut short, and by a record without terminator. -/
theorem parseDirent_malformed_witness :
    parseDirent linuxAmd64 2 ⟨[rec24 1 97 0 0 0 0].flatten ++ (rec32 1 [98]).take 24, []⟩
        [] (-1) = .panic ∧
      parseDirent linuxAmd64 2 ⟨[rec24 1 97 0 0 0 0].flatten ++ rec24 1 98 99 100 101 102, []⟩
        [] (-1) = .ret ([[97], [98, 99, 100, 101, 102]], none) :=
  ⟨(parseDirent_malformed linuxAmd64 (by decide) [rec24 1 97 0 0 0 0] (by decide)
      ((rec32 1 [98]).take 24) [] [] (-1) (by decide) (by decide) 0).2.1
      (by decide) (by decide),
   (parseDirent_malformed linuxAmd64 (by decide) [rec24 1 97 0 0 0 0] (by decide)
      (rec24 1 98 99 100 101 102) [] [] (-1) (by decide) (by decide) 0).2.2
      (by decide) (by decide) (by decide) (by decide)⟩

/-- C7, refuted as stated: a buffer whose only record declares 32 bytes while 24
remain makes `parseDirent` panic, and a record with inode 1 whose name field holds no
zero byte makes it return that whole field as a name with a nil error; neither call
returns a non-nil error. -/
theorem parseDirent_no_decode_error :
    declaredLen linuxAmd64 ((rec32 1 [98]).take 24) = 32 ∧
      parseDirent linuxAmd64 1 ⟨(rec32 1 [98]).take 24, []⟩ [] (-1) = .panic ∧
      (0 : Byte) ∉ nameField linuxAmd64 (rec24 1 98 99 100 101 102) ∧
      inodeOf linuxAmd64 (rec24 1 98 99 100 101 102) ≠ 0 ∧
      parseDirent linuxAmd64 1 ⟨rec24 1 98 99 100 101 102, []⟩ [] (-1)
        = .ret ([[98, 99, 100, 101, 102]], none) := by
  decide

/-! ## `dirSize` on a file tree -/

theorem wrapInt64_add_wrap (a b : Int) :
    wrapInt64 (wrapInt64 a + wrapInt64 b) = wrapInt64 (a + b) := by
  unfold wrapInt64; omega

theorem untilFailure_nil {Path : Type} : untilFailure ([] : List (Path × Option GoError)) = [] := by
  simp [untilFailure]

theorem untilFailure_cons_none {Path : Type} (fp : Path) (l : List (Path × Option GoError)) :
    untilFailure ((fp, none) :: l) = fp :: untilFailure l := by
  simp [untilFailure, List.takeWhile_cons, List.find?_cons]

theorem untilFailure_cons_some {Path : Type} (fp : Path) (err : GoError)
    (l : List (Path × Option GoError)) : untilFailure ((fp, some err) :: l) = [fp] := by
  simp [untilFailure, List.takeWhile_cons, List.find?_cons]

theorem firstFailure_cons_none {Path : Type} (fp : Path) (l : List (Path × Option GoError)) :
    firstFailure ((fp, none) :: l) = firstFailure l := by
  simp [firstFailure, List.find?_cons]

theorem firstFailure_cons_some {Path : Type} (fp : Path) (err : GoError)
    (l : List (Path × Option GoError)) : firstFailure ((fp, some err) :: l) = some err := by
  simp [firstFailure, List.find?_cons]

theorem firstFailure_append {Path : Type} (l1 l2 : List (Path × Option GoError)) :
    firstFailure (l1 ++ l2)
      = match firstFailure l1 with
        | some err => some err
        | none => firstFailure l2 := by
  induction l1 with
  | nil => simp [firstFailure]
  | cons x l ih =>
    obtain ⟨fp, err⟩ := x
    cases err with
    | none => simpa [firstFailure_cons_none] using ih
    | some err => simp [firstFailure_cons_some]

theorem untilFailure_append {Path : Type} (l1 l2 : List (Path × Option GoError)) :
    untilFailure (l1 ++ l2)
      = match firstFailure l1 with
        | some _ => untilFailure l1
        | none => untilFailure l1 ++ untilFailure l2 := by
  induction l1 with
  | nil => simp [firstFailure, untilFailure_nil]
  | cons x l ih =>
    obtain ⟨fp, err⟩ := x
    cases err with
    | none =>
      simp only [List.cons_append, untilFailure_cons_none, firstFailure_cons_none, ih]
      cases firstFailure l <;> simp
    | some err => simp [firstFailure_cons_some, untilFailure_cons_some]

mutual
theorem tree_firstFailure_nodes {Path : Type} (join : Path → Name → Path) :
    (t : Tree) → (fp : Path) → firstFailure (t.nodes join fp) = t.firstErr
  | .file _, fp => by simp [Tree.nodes, Tree.firstErr, firstFailure_cons_none, firstFailure]
  | .broken err, fp => by simp [Tree.nodes, Tree.firstErr, firstFailure_cons_some]
  | .dir kids, fp => by
    simp only [Tree.nodes, Tree.firstErr, firstFailure_cons_none]
    exact forest_firstFailure_nodes join kids fp
theorem forest_firstFailure_nodes {Path : Type} (join : Path → Name → Path) :
    (k : Forest) → (fp : Path) → firstFailure (k.nodes join fp) = k.firstErr
  | .nil, fp => by simp [Forest.nodes, Forest.firstErr, firstFailure]
  | .cons name t rest, fp => by
    simp only [Forest.nodes, Forest.firstErr, firstFailure_append]
    rw [tree_firstFailure_nodes join t (join fp name), forest_firstFailure_nodes join rest fp]
end

theorem forest_before_eq_total : (k : Forest) → k.firstErr = none → k.before = k.total
  | .nil, _ => by simp [Forest.before, Forest.total]
  | .cons name t rest, h => by
    simp only [Forest.firstErr] at h
    cases ht : t.firstErr with
    | some err => rw [ht] at h; simp at h
    | none =>
      rw [ht] at h
      simp only [Forest.before, Forest.total, ht, if_true]
      rw [forest_before_eq_total rest h]

theorem tree_reported_eq_total (t : Tree) (h : t.firstErr = none) : t.reported = t.total := by
  cases t with
  | file size => rfl
  | broken err => simp [Tree.firstErr] at h
  | dir kids =>
    simp only [Tree.reported, Tree.total]
    exact forest_before_eq_total kids (by simpa [Tree.firstErr] using h)

mutual
/-- What `dirSize` returns on a tree, and the paths it classifies. -/
theorem tree_dirSize_run {Path : Type} (fc : Path → FileCheckResult)
    (join : Path → Name → Path) :
    (t : Tree) → (fp : Path) → (log : List Path) → (fuel : Nat) →
    t.represents fc join fp = true → t.sizesOk = true → t.depth ≤ fuel →
    dirSize join (logged fc) fuel fp log
      = .ret ((wrapInt64 t.reported, t.firstErr), log ++ untilFailure (t.nodes join fp))
  | .file size, fp, log, fuel, hrep, hs, hfuel => by
    obtain ⟨f, rfl⟩ : ∃ f, fuel = f + 1 := ⟨fuel - 1, by simp [Tree.depth] at hfuel; omega⟩
    simp only [Tree.represents, Bool.and_eq_true, decide_eq_true_eq, Bool.not_eq_true'] at hrep
    obtain ⟨⟨h1, h2⟩, h3⟩ := hrep
    simp only [Tree.sizesOk, decide_eq_true_eq] at hs
    simp [dirSize, logged, h1, h2, h3, Tree.reported, Tree.firstErr, Tree.nodes,
      untilFailure_cons_none, untilFailure_nil, wrapInt64_of_isInt64 size hs]
  | .broken err, fp, log, fuel, hrep, hs, hfuel => by
    obtain ⟨f, rfl⟩ : ∃ f, fuel = f + 1 := ⟨fuel - 1, by simp [Tree.depth] at hfuel; omega⟩
    simp only [Tree.represents, Bool.and_eq_true, decide_eq_true_eq] at hrep
    obtain ⟨h1, h2⟩ := hrep
    simp [dirSize, logged, h1, h2, Tree.reported, Tree.firstErr, Tree.nodes,
      untilFailure_cons_some, wrapInt64]
  | .dir kids, fp, log, fuel, hrep, hs, hfuel => by
    obtain ⟨f, rfl⟩ : ∃ f, fuel = f + 1 := ⟨fuel - 1, by simp [Tree.depth] at hfuel; omega⟩
    simp only [Tree.represents, Bool.and_eq_true, decide_eq_true_eq] at hrep
    obtain ⟨⟨⟨⟨h1, h2⟩, h3⟩, h4⟩, h5⟩ := hrep
    simp only [Tree.sizesOk] at hs
    have hk : kids.depth ≤ f := by simp [Tree.depth] at hfuel; omega
    have h0 : (0 : Int) = wrapInt64 0 := by simp [wrapInt64]
    have ih := forest_dirSizeLoop_run fc join kids fp (log ++ [fp]) f 0 h5 hs hk
    simp only [dirSize, logged, h1, h2, h3, h4, ne_eq, not_true_eq_false, if_false,
      Bool.not_true, Bool.false_eq_true]
    rw [h0, ih]
    simp [Tree.reported, Tree.firstErr, Tree.nodes, untilFailure_cons_none]
/-- What the loop of `dirSize` returns on the children of a directory. -/
theorem forest_dirSizeLoop_run {Path : Type} (fc : Path → FileCheckResult)
    (join : Path → Name → Path) :
    (k : Forest) → (fp : Path) → (log : List Path) → (fuel : Nat) → (acc : Int) →
    k.represents fc join fp = true → k.sizesOk = true → k.depth ≤ fuel →
    dirSizeLoop join (dirSize join (logged fc) fuel) fp none k.names (wrapInt64 acc) log
      = .ret ((wrapInt64 (acc + k.before), k.firstErr), log ++ untilFailure (k.nodes join fp))
  | .nil, fp, log, fuel, acc, _, _, _ => by
    simp [dirSizeLoop, Forest.names, Forest.before, Forest.firstErr, Forest.nodes,
      untilFailure_nil]
  | .cons name t rest, fp, log, fuel, acc, hrep, hs, hfuel => by
    simp only [Forest.represents, Bool.and_eq_true] at hrep
    simp only [Forest.sizesOk, Bool.and_eq_true] at hs
    simp only [Forest.depth] at hfuel
    have ht := tree_dirSize_run fc join t (join fp name) log fuel hrep.1 hs.1
      (le_trans (le_max_left _ _) hfuel)
    have hff := tree_firstFailure_nodes join t (join fp name)
    simp only [Forest.names, dirSizeLoop, ht, Forest.nodes, untilFailure_append, hff,
      Forest.firstErr, Forest.before]
    cases hte : t.firstErr with
    | some err => simp
    | none =>
      have hr := forest_dirSizeLoop_run fc join rest fp
        (log ++ untilFailure (t.nodes join (join fp name))) fuel (acc + t.total) hrep.2 hs.2
        (le_trans (le_max_right _ _) hfuel)
      simp only [ne_eq, not_true_eq_false, if_false, if_true]
      rw [wrapInt64_add_wrap, tree_reported_eq_total t hte, hr]
      simp [Int.add_assoc]
end

mutual
theorem tree_fileSizes_sum : (t : Tree) → t.fileSizes.sum = t.total
  | .file size => by simp [Tree.fileSizes, Tree.total]
  | .broken _ => by simp [Tree.fileSizes, Tree.total]
  | .dir kids => by
    simp only [Tree.fileSizes, Tree.total]
    exact forest_fileSizes_sum kids
theorem forest_fileSizes_sum : (k : Forest) → k.fileSizes.sum = k.total
  | .nil => by simp [Forest.fileSizes, Forest.total]
  | .cons _ t rest => by
    simp only [Forest.fileSizes, Forest.total, List.sum_append]
    rw [tree_fileSizes_sum t, forest_fileSizes_sum rest]
end

theorem untilFailure_of_no_failure {Path : Type} (l : List (Path × Option GoError))
    (h : firstFailure l = none) : untilFailure l = l.map Prod.fst := by
  induction l with
  | nil => simp [untilFailure_nil]
  | cons x l ih =>
    obtain ⟨fp, err⟩ := x
    cases err with
    | none =>
      rw [firstFailure_cons_none] at h
      simp [untilFailure_cons_none, ih h]
    | some err => simp [firstFailure_cons_some] at h

theorem untilFailure_split {Path : Type} (before after : List (Path × Option GoError))
    (q : Path) (err : GoError) (hbefore : ∀ x ∈ before, x.2 = none) :
    untilFailure (before ++ (q, some err) :: after) = before.map Prod.fst ++ [q] ∧
      firstFailure (before ++ (q, some err) :: after) = some err := by
  induction before with
  | nil => simp [untilFailure_cons_some, firstFailure_cons_some]
  | cons x l ih =>
    obtain ⟨fp, e⟩ := x
    have hx : e = none := hbefore (fp, e) (List.mem_cons_self _ _)
    subst hx
    have ih2 := ih (fun y hy => hbefore y (List.mem_cons_of_mem _ hy))
    simp only [List.cons_append, untilFailure_cons_none, firstFailure_cons_none, ih2.1, ih2.2,
      List.map_cons, and_self]

/-! ## Claims about `dirSize` -/

/-- C8, as the code has it: on a finite file tree in which every classification
succeeds and the names decoded for every directory are those of its children,
`dirSize` of the root classifies every node once, in depth-first order, and returns a
nil error and the sum of the sizes of the non-directory nodes reduced to the signed
64-bit range (a directory adds nothing of its own); the file sizes may be summed in any
order, and the result is the sum itself whenever the sum is a signed 64-bit value. -/
theorem dirSize_healthy_tree {Path : Type} (fc : Path → FileCheckResult)
    (join : Path → Name → Path) (t : Tree) (root : Path) (log : List Path) (fuel : Nat)
    (hrep : t.represents fc join root = true) (hs : t.sizesOk = true)
    (hok : t.firstErr = none) (hfuel : t.depth ≤ fuel) :
    (∀ sizes : List Int, sizes.Perm t.fileSizes →
        dirSize join (logged fc) fuel root log
          = .ret ((wrapInt64 sizes.sum, none), log ++ (t.nodes join root).map Prod.fst)) ∧
      (IsInt64 t.total →
        dirSize join (logged fc) fuel root log
          = .ret ((t.total, none), log ++ (t.nodes join root).map Prod.fst)) := by
  have h := tree_dirSize_run fc join t root log fuel hrep hs hfuel
  have hff : firstFailure (t.nodes join root) = none := by
    rw [tree_firstFailure_nodes join t root, hok]
  rw [tree_reported_eq_total t hok, hok, untilFailure_of_no_failure _ hff] at h
  constructor
  · intro sizes hp
    rw [hp.sum_eq, tree_fileSizes_sum t]
    exact h
  · intro hi
    rw [wrapInt64_of_isInt64 _ hi] at h
    exact h

/-- C8 on the scenario tree: file `a` (100) and directory `b` holding file `c` (50) give 150. -/
theorem dirSize_healthy_tree_witness :
    dirSize joinNames (logged sampleTree.check) 3 [] []
      = .ret ((150, none), [[], [[97]], [[98]], [[98], [99]]]) :=
  (dirSize_healthy_tree sampleTree.check joinNames sampleTree [] [] 3
    (by decide) (by decide) (by decide) (by decide)).2 (by decide)

/-- C8, refuted as stated: a directory holding two files of `2 ^ 62` bytes each; every
classification succeeds, the sizes sum to `2 ^ 63`, and `dirSize` returns `-2 ^ 63`. -/
theorem dirSize_sum_wraps :
    hugeTree.represents hugeTree.check joinNames [] = true ∧ hugeTree.firstErr = none ∧
      hugeTree.total = 9223372036854775808 ∧
      dirSize joinNames (logged hugeTree.check) 2 [] []
        = .ret ((-9223372036854775808, none), [[], [[97]], [[98]]]) := by
  decide

/-- C9, as the code has it: on a file tree in which the classification of some node
fails, `dirSize` of the root returns the error of the first failing node together with
the sum, reduced to the signed 64-bit range, of the sizes of the files under the
children of the root that precede the child holding that node; the size is 0 when the
root itself fails. -/
theorem dirSize_failure_partial_sum {Path : Type} (fc : Path → FileCheckResult)
    (join : Path → Name → Path) (t : Tree) (root : Path) (log : List Path) (fuel : Nat)
    (err : GoError)
    (hrep : t.represents fc join root = true) (hs : t.sizesOk = true)
    (hfail : t.firstErr = some err) (hfuel : t.depth ≤ fuel) :
    dirSize join (logged fc) fuel root log
      = .ret ((wrapInt64 t.reported, some err), log ++ untilFailure (t.nodes join root)) := by
  rw [tree_dirSize_run fc join t root log fuel hrep hs hfuel, hfail]

/-- C9 on a tree whose node `b/x` fails after file `a` (100) has been summed. -/
theorem dirSize_failure_partial_sum_witness :
    dirSize joinNames (logged failingTree.check) 3 [] []
      = .ret ((100, some ⟨5⟩), [[], [[97]], [[98]], [[98], [120]]]) :=
  dirSize_failure_partial_sum failingTree.check joinNames failingTree [] [] 3 ⟨5⟩
    (by decide) (by decide) (by decide) (by decide)

/-- C9, refuted as stated: the classification of `b/x` fails after file `a` of size 100
has been summed, and `dirSize` of the root returns the error together with size 100. -/
theorem dirSize_failure_not_zero :
    failingTree.represents failingTree.check joinNames [] = true ∧
      failingTree.firstErr = some ⟨5⟩ ∧
      dirSize joinNames (logged failingTree.check) 3 [] []
        = .ret ((100, some ⟨5⟩), [[], [[97]], [[98]], [[98], [120]]]) := by
  decide

/-- C10: on a file tree whose nodes, in depth-first order with children in decode
order, are `before`, then a node `q` failing with `err`, then `after`, where no node of
`before` fails, `dirSize` of the root returns `err`, and the paths it classifies are
those of `before` followed by `q`: no node of `after` is opened or classified. -/
theorem dirSize_first_failure {Path : Type} (fc : Path → FileCheckResult)
    (join : Path → Name → Path) (t : Tree) (root : Path) (log : List Path) (fuel : Nat)
    (before after : List (Path × Option GoError)) (q : Path) (err : GoError)
    (hrep : t.represents fc join root = true) (hs : t.sizesOk = true)
    (hfuel : t.depth ≤ fuel)
    (hnodes : t.nodes join root = before ++ (q, some err) :: after)
    (hbefore : ∀ x ∈ before, x.2 = none) :
    dirSize join (logged fc) fuel root log
      = .ret ((wrapInt64 t.reported, some err), log ++ (before.map Prod.fst ++ [q])) := by
  have hsplit := untilFailure_split before after q err hbefore
  rw [← hnodes] at hsplit
  rw [tree_dirSize_run fc join t root log fuel hrep hs hfuel, hsplit.1,
    ← tree_firstFailure_nodes join t root, hsplit.2]

/-- C10 on a tree whose fourth node in depth-first order fails: the fifth is not classified. -/
theorem dirSize_first_failure_witness :
    dirSize joinNames (logged failingTree.check) 3 [] []
      = .ret ((100, some ⟨5⟩), [[], [[97]], [[98]], [[98], [120]]]) :=
  dirSize_first_failure failingTree.check joinNames failingTree [] [] 3
    [([], none), ([[97]], none), ([[98]], none)] [([[99]], none)] [[98], [120]] ⟨5⟩
    (by decide) (by decide) (by decide) (by decide) (by decide)

/-! ## `isDir` and the classification of non-directories -/

/-- The test of `isDir` reads one bit of the mode: bit 14. -/
theorem isDir_eq_testBit (mode : Nat) : isDir mode = mode.testBit 14 := by
  have h := Nat.and_two_pow mode 14
  unfold isDir S_IFDIR
  norm_num at h ⊢
  rw [h]
  cases mode.testBit 14 <;> simp

/-- C11, on the code: the mode `0x61B0` of a block device (file type `0x6000`, not
`S_IFDIR`) and the mode `0xC1ED` of a socket pass `isDir`, and `fileCheck` takes the
directory branch on the block device: it reads directory entries from it and returns
`dir = true` with the error of that read instead of the metadata size. -/
theorem isDir_accepts_block_device :
    (0x61B0 &&& S_IFMT = 0x6000) ∧ isDir 0x61B0 = true ∧
      (0xC1ED &&& S_IFMT = 0xC000) ∧ isDir 0xC1ED = true ∧
      (fileCheck linuxAmd64
          (constOS { Mode := 0x61B0, Size := 512 } { n := -1, err := some ENOTDIR, data := [] })
          1 () ()).result
        = .ret { names := [], size := 0, dir := true, err := some ENOTDIR } := by
  decide

/-! ## Read errors in `fileCheck` -/

/-- The first read of the loop: a zero count ends the loop with a nil error whatever
the error reported with it; a nonzero count with an error returns that error. -/
theorem fileCheckLoop_first_read {σ : Type} (L : Layout)
    (rd : Int → Nat → σ → ReadResult × σ) (fd : Int) (pfuel fuel : Nat) (buf : Slice)
    (names : List Name) (s : σ) :
    ((rd fd buf.len s).1.n = 0 →
        fileCheckLoop L rd fd pfuel (fuel + 1) buf names s
          = .ret ((names, none), (rd fd buf.len s).2)) ∧
      ((rd fd buf.len s).1.n ≠ 0 → (rd fd buf.len s).1.err ≠ none →
        fileCheckLoop L rd fd pfuel (fuel + 1) buf names s
          = .ret ((names, (rd fd buf.len s).1.err), (rd fd buf.len s).2)) := by
  constructor
  · intro h0
    simp [fileCheckLoop, h0]
  · intro h0 he
    simp [fileCheckLoop, h0, he]

/-- C13, on the code: when the directory read reports the error `EIO` together with a
count of 0, `fileCheck` leaves the loop and returns a nil error; with a count of -1
it returns `EIO`. -/
theorem fileCheck_drops_error_with_zero_count :
    (fileCheck linuxAmd64
        (constOS { Mode := 0x41ED, Size := 4096 } { n := 0, err := some EIO, data := [] })
        1 () ()).result
      = .ret { names := [], size := 0, dir := true, err := none } ∧
    (fileCheck linuxAmd64
        (constOS { Mode := 0x41ED, Size := 4096 } { n := -1, err := some EIO, data := [] })
        1 () ()).result
      = .ret { names := [], size := 0, dir := true, err := some EIO } := by
  decide

/-! ## `GetFileSystem` -/

theorem toUint64_cast (b : Int) : ((toUint64 b : Nat) : Int) = b % 2 ^ 64 := by
  unfold toUint64
  exact Int.toNat_of_nonneg (Int.emod_nonneg _ (by norm_num))

theorem mul_toUint64_mod (a : Nat) (b : Int) :
    (((a * toUint64 b) % 2 ^ 64 : Nat) : Int) = ((a : Int) * b) % 2 ^ 64 := by
  push_cast
  rw [toUint64_cast]
  norm_num
  rw [Int.mul_emod, Int.emod_emod_of_dvd _ (dvd_refl _), ← Int.mul_emod]

/-- C14: when the block-statistics call succeeds with block size `b`, `T` total blocks
and `A` available blocks, `GetFileSystem` returns a nil error with
`AvailSize ≡ A * b`, `AllSize ≡ T * b` and `UsedSize ≡ AllSize - AvailSize`, each
reduced modulo `2 ^ 64`, so that `AvailSize + UsedSize` is `AllSize` modulo `2 ^ 64`. -/
theorem GetFileSystem_sizes {Path : Type} (Statfs : Path → Statfs_t × Option GoError)
    (path : Path) (b : Int) (T A : Nat)
    (h : Statfs path = ({ Bsize := b, Blocks := T, Bavail := A }, none)) :
    (GetFileSystem Statfs path).2 = none ∧
      ((GetFileSystem Statfs path).1.AvailSize : Int) = ((A : Int) * b) % 2 ^ 64 ∧
      ((GetFileSystem Statfs path).1.AllSize : Int) = ((T : Int) * b) % 2 ^ 64 ∧
      ((GetFileSystem Statfs path).1.UsedSize : Int)
        = (((GetFileSystem Statfs path).1.AllSize : Int)
            - ((GetFileSystem Statfs path).1.AvailSize : Int)) % 2 ^ 64 ∧
      ((GetFileSystem Statfs path).1.AvailSize + (GetFileSystem Statfs path).1.UsedSize)
          % 2 ^ 64
        = (GetFileSystem Statfs path).1.AllSize := by
  have hg : GetFileSystem Statfs path
      = ({ AvailSize := (A * toUint64 b) % 2 ^ 64
           UsedSize := ((T * toUint64 b) % 2 ^ 64 + 2 ^ 64 - (A * toUint64 b) % 2 ^ 64) % 2 ^ 64
           AllSize := (T * toUint64 b) % 2 ^ 64 }, none) := by
    simp [GetFileSystem, h]
  rw [hg]
  refine ⟨rfl, mul_toUint64_mod A b, mul_toUint64_mod T b, ?_, ?_⟩
  · simp only
    have hx : (T * toUint64 b) % 2 ^ 64 < 2 ^ 64 := Nat.mod_lt _ (by norm_num)
    have hy : (A * toUint64 b) % 2 ^ 64 < 2 ^ 64 := Nat.mod_lt _ (by norm_num)
    generalize (T * toUint64 b) % 2 ^ 64 = x at hx ⊢
    generalize (A * toUint64 b) % 2 ^ 64 = y at hy ⊢
    omega
  · simp only
    have hx : (T * toUint64 b) % 2 ^ 64 < 2 ^ 64 := Nat.mod_lt _ (by norm_num)
    have hy : (A * toUint64 b) % 2 ^ 64 < 2 ^ 64 := Nat.mod_lt _ (by norm_num)
    generalize (T * toUint64 b) % 2 ^ 64 = x at hx ⊢
    generalize (A * toUint64 b) % 2 ^ 64 = y at hy ⊢
    omega

/-- C14 on the scenario: block size 4096, 1000 blocks, 200 available. -/
theorem GetFileSystem_sizes_witness :
    GetFileSystem sampleStatfs ()
      = ({ AvailSize := 819200, UsedSize := 3276800, AllSize := 4096000 }, none) ∧
    (819200 + 3276800) % 2 ^ 64 = 4096000 :=
  ⟨by decide, (GetFileSystem_sizes sampleStatfs () 4096 1000 200 rfl).2.2.2.2⟩

/-! ## Termination of the decoding loop -/

theorem declaredLen_take (L : Layout) (hL : L.Valid) (buf : List Byte) (d : Nat)
    (hd : L.NameOff ≤ d) : declaredLen L (buf.take d) = declaredLen L buf := by
  obtain ⟨_, h2, _, h4⟩ := hL
  unfold declaredLen
  rw [List.drop_take, List.take_take, Nat.min_eq_left (by omega)]

theorem parseDirentBody_record (L : Layout) (hL : L.Valid) (r tail e : List Byte)
    (hd : declaredLen L r = r.length) (hn : L.NameOff ≤ r.length)
    (names : List Name) (n : Int) :
    parseDirentBody L ⟨r ++ tail, e⟩ names n
      = some (⟨tail, e⟩, afterRecord L r names n) := by
  have h4 := hL.2.2.2
  unfold parseDirentBody
  rw [readRecLen_whole L hL r tail e (by omega), hd]
  simp only [Option.bind_eq_bind, Option.some_bind]
  rw [sliceTo_inside (r ++ tail) e r.length (by simp),
    sliceFrom_inside (r ++ tail) e r.length (by simp)]
  simp only [Option.some_bind, List.take_left', List.drop_left', List.append_assoc]
  rw [readIno_whole L hL r (tail ++ e) hn]
  simp only [Option.some_bind, afterRecord]
  by_cases hi : inodeOf L r = 0
  · simp [hi]
  · simp only [hi, if_false]
    rw [decodeName_whole L r (tail ++ e) hn]
    simp only [Option.some_bind, isPseudo]
    by_cases hp : windowName (nameField L r) = dot ∨ windowName (nameField L r) = dotdot
    · simp [hp]
    · simp [hp]

/-- One iteration on a buffer whose front record declares a length between the name
offset and the number of bytes remaining. -/
theorem parseDirentBody_front (L : Layout) (hL : L.Valid) (buf e : List Byte)
    (h1 : L.NameOff ≤ declaredLen L buf) (h2 : declaredLen L buf ≤ buf.length)
    (names : List Name) (n : Int) :
    parseDirentBody L ⟨buf, e⟩ names n
      = some (⟨buf.drop (declaredLen L buf), e⟩,
          afterRecord L (buf.take (declaredLen L buf)) names n) := by
  have hlen : (buf.take (declaredLen L buf)).length = declaredLen L buf := by
    rw [List.length_take]; omega
  have h := parseDirentBody_record L hL (buf.take (declaredLen L buf))
    (buf.drop (declaredLen L buf)) e
    (by rw [declaredLen_take L hL buf _ h1, hlen]) (by rw [hlen]; exact h1) names n
  rw [List.take_append_drop] at h
  exact h

theorem parseDirent_chained_returns (L : Layout) (hL : L.Valid) (buf e : List Byte)
    (h : Chained L buf) (names : List Name) (n : Int) (fuel : Nat)
    (hfuel : buf.length / L.NameOff ≤ fuel) :
    ∃ out, parseDirent L fuel ⟨buf, e⟩ names n = .ret (out, none) := by
  have hpos : 0 < L.NameOff := by
    obtain ⟨h1, _, h3, _⟩ := hL
    omega
  induction h generalizing names n fuel with
  | done buf hshort =>
    exact ⟨names, parseDirent_short L fuel ⟨buf, e⟩ names n (by simpa [Slice.len] using hshort)⟩
  | step buf h1 h2 _ ih =>
    by_cases hc : loopCond L ⟨buf, e⟩ n = true
    · have hdiv : (buf.length - L.NameOff) / L.NameOff + 1 = buf.length / L.NameOff := by
        rw [← Nat.add_div_right _ hpos, Nat.sub_add_cancel (by omega)]
      have hone : 1 ≤ fuel := by
        rw [← hdiv] at hfuel
        exact le_trans (Nat.le_add_left _ _) hfuel
      obtain ⟨k, rfl⟩ : ∃ k, fuel = k + 1 := ⟨fuel - 1, by omega⟩
      have hk : (buf.drop (declaredLen L buf)).length / L.NameOff ≤ k := by
        have hle : (buf.drop (declaredLen L buf)).length ≤ buf.length - L.NameOff := by
          rw [List.length_drop]; omega
        have hdl := Nat.div_le_div_right (c := L.NameOff) hle
        rw [← hdiv] at hfuel
        exact le_trans hdl (Nat.le_of_succ_le_succ hfuel)
      rw [parseDirent]
      simp only [hc, if_true]
      rw [parseDirentBody_front L hL buf e h1 h2 names n]
      exact ih _ _ k hk
    · refine ⟨names, ?_⟩
      cases fuel <;> simp [parseDirent, hc]

/-- C15: on a buffer in which every record the loop reaches declares a length between
the name offset and the number of bytes remaining, and for every budget, `parseDirent`
run for `len(buf) / NameOff` iterations (or more) neither panics nor is cut short: it
returns. Each iteration the loop enters removes the declared length of the front
record, a strictly positive number of bytes, takes all its slices within bounds, and
leaves a buffer of the same kind. -/
theorem parseDirent_terminates (L : Layout) (hL : L.Valid) (buf e : List Byte)
    (h : Chained L buf) (names : List Name) (n : Int) (fuel : Nat)
    (hfuel : buf.length / L.NameOff ≤ fuel) :
    parseDirent L fuel ⟨buf, e⟩ names n ≠ .panic ∧
      parseDirent L fuel ⟨buf, e⟩ names n ≠ .outOfFuel ∧
      (loopCond L ⟨buf, e⟩ n = true →
        parseDirentBody L ⟨buf, e⟩ names n
            = some (⟨buf.drop (declaredLen L buf), e⟩,
                afterRecord L (buf.take (declaredLen L buf)) names n) ∧
          0 < declaredLen L buf ∧
          (buf.drop (declaredLen L buf)).length < buf.length ∧
          Chained L (buf.drop (declaredLen L buf))) := by
  obtain ⟨out, hout⟩ := parseDirent_chained_returns L hL buf e h names n fuel hfuel
  refine ⟨by rw [hout]; simp, by rw [hout]; simp, ?_⟩
  intro hc
  have hpos : 0 < L.NameOff := by
    obtain ⟨h1, _, h3, _⟩ := hL
    omega
  cases h with
  | done _ hshort =>
    simp [loopCond, Slice.len] at hc
    omega
  | step _ h1 h2 h3 =>
    refine ⟨parseDirentBody_front L hL buf e h1 h2 names n, by omega, ?_, h3⟩
    rw [List.length_drop]
    omega

/-- C15 on two 24-byte records followed by a 10-byte remainder, with fuel 58 / 19 = 3. -/
theorem parseDirent_terminates_witness :
    parseDirent linuxAmd64 3
        ⟨rec24 1 97 0 0 0 0 ++ (rec24 0 98 0 0 0 0 ++ [1, 2, 3, 4, 5, 6, 7, 8, 9, 10]), []⟩
        [] (-1) ≠ .panic ∧
      parseDirent linuxAmd64 3
        ⟨rec24 1 97 0 0 0 0 ++ (rec24 0 98 0 0 0 0 ++ [1, 2, 3, 4, 5, 6, 7, 8, 9, 10]), []⟩
        [] (-1) ≠ .outOfFuel :=
  have h := parseDirent_terminates linuxAmd64 (by decide)
    (rec24 1 97 0 0 0 0 ++ (rec24 0 98 0 0 0 0 ++ [1, 2, 3, 4, 5, 6, 7, 8, 9, 10])) []
    (.step _ (by decide) (by decide)
      (.step _ (by decide) (by decide) (.done _ (by decide))))
    [] (-1) 3 (by decide)
  ⟨h.1, h.2.1⟩

/-! ## The read loop of `fileCheck` -/

theorem makeBytes_len (n : Nat) : (makeBytes n).len = n := by
  simp [makeBytes, Slice.len]

theorem flatten_pos_of_whole (L : Layout) (recs : List (List Byte))
    (hw : ∀ r ∈ recs, Whole L r) (hne : recs ≠ []) : 0 < recs.flatten.length := by
  cases recs with
  | nil => exact absurd rfl hne
  | cons r rs =>
    have := (hw r (List.mem_cons_self _ _)).2.2
    simp only [List.flatten_cons, List.length_append]
    omega

/-- The slice handed to `parseDirent` after a read that filled `data`. -/
theorem readInto_sliceTo (buf : Slice) (data : List Byte) (hle : data.length ≤ buf.len) :
    (readInto buf data).sliceTo data.length
      = some ⟨data, buf.vis.drop data.length ++ buf.ext⟩ := by
  unfold readInto
  rw [List.take_of_length_le hle, sliceTo_inside _ _ _ (by simp)]
  simp

/-- One pass of the read loop over a batch of whole records. -/
theorem fileCheckLoop_batch {σ : Type} (L : Layout) (hL : L.Valid)
    (rd : Int → Nat → σ → ReadResult × σ) (fd : Int) (pfuel fuel : Nat) (buf : Slice)
    (names : List Name) (s : σ) (recs : List (List Byte))
    (hw : ∀ r ∈ recs, Whole L r) (hne : recs ≠ [])
    (hrd : (rd fd buf.len s).1
      = { n := (recs.flatten.length : Nat), err := none, data := recs.flatten })
    (hle : recs.flatten.length ≤ buf.len) (hp : recs.length ≤ pfuel) :
    fileCheckLoop L rd fd pfuel (fuel + 1) buf names s
      = fileCheckLoop L rd fd pfuel fuel
          ⟨recs.flatten, buf.vis.drop recs.flatten.length ++ buf.ext⟩
          (names ++ (windowNames L recs).take (credit (-1))) (rd fd buf.len s).2 := by
  have hpos := flatten_pos_of_whole L recs hw hne
  rw [fileCheckLoop]
  generalize rd fd buf.len s = x at hrd ⊢
  obtain ⟨r, s2⟩ := x
  simp only at hrd
  subst hrd
  have h0 : ¬ ((recs.flatten.length : Nat) : Int) = 0 := by omega
  have h1 : ¬ ((recs.flatten.length : Nat) : Int) < 0 := by omega
  simp only [h0, h1, if_false, ne_eq, not_true_eq_false, Int.toNat_ofNat]
  rw [readInto_sliceTo buf _ hle]
  simp only
  rw [parseDirent_whole L hL recs hw _ pfuel hp names (-1) (by decide)]
  simp

/-- One pass of the variant loop over a batch of whole records. -/
theorem fileCheckLoopFresh_batch {σ : Type} (L : Layout) (hL : L.Valid)
    (rd : Int → Nat → σ → ReadResult × σ) (fd : Int) (pfuel fuel : Nat)
    (names : List Name) (s : σ) (recs : List (List Byte))
    (hw : ∀ r ∈ recs, Whole L r) (hne : recs ≠ [])
    (hrd : (rd fd (32 * 1024) s).1
      = { n := (recs.flatten.length : Nat), err := none, data := recs.flatten })
    (hle : recs.flatten.length ≤ 32 * 1024) (hp : recs.length ≤ pfuel) :
    fileCheckLoopFresh L rd fd pfuel (fuel + 1) names s
      = fileCheckLoopFresh L rd fd pfuel fuel
          (names ++ (windowNames L recs).take (credit (-1))) (rd fd (32 * 1024) s).2 := by
  have hpos := flatten_pos_of_whole L recs hw hne
  rw [fileCheckLoopFresh, makeBytes_len]
  generalize rd fd (32 * 1024) s = x at hrd ⊢
  obtain ⟨r, s2⟩ := x
  simp only at hrd
  subst hrd
  have h0 : ¬ ((recs.flatten.length : Nat) : Int) = 0 := by omega
  have h1 : ¬ ((recs.flatten.length : Nat) : Int) < 0 := by omega
  simp only [h0, h1, if_false, ne_eq, not_true_eq_false, Int.toNat_ofNat]
  rw [readInto_sliceTo _ _ (by rw [makeBytes_len]; exact hle)]
  simp only
  rw [parseDirent_whole L hL recs hw _ pfuel hp names (-1) (by decide)]
  simp

/-- The read loop over batches of well-formed records followed by a zero-length read. -/
theorem fileCheckLoop_delivers {σ : Type} (L : Layout) (hL : L.Valid)
    (rd : Int → Nat → σ → ReadResult × σ) (fd : Int) (pfuel : Nat) :
    ∀ (batches : List (List (List Byte))) (fuel : Nat) (buf : Slice) (names : List Name)
      (s : σ),
      (∀ b ∈ batches, ∀ r ∈ b, WellFormed L r) →
      Delivers rd fd s buf.len (batches.map List.flatten) →
      batches.length < fuel → (∀ b ∈ batches, b.length ≤ pfuel) → buf.len < 2 ^ 63 →
      (fileCheckLoop L rd fd pfuel fuel buf names s).result
        = .ret (names ++ (batches.map (liveNames L)).flatten, none) := by
  intro batches
  induction batches with
  | nil =>
    intro fuel buf names s _ hdel hfuel _ _
    obtain ⟨k, rfl⟩ : ∃ k, fuel = k + 1 := ⟨fuel - 1, by simp at hfuel; omega⟩
    simp only [List.map_nil, Delivers] at hdel
    rw [(fileCheckLoop_first_read L rd fd pfuel k buf names s).1 hdel]
    simp [Outcome.result]
  | cons b bs ih =>
    intro fuel buf names s hwf hdel hfuel hp hlen
    obtain ⟨k, rfl⟩ : ∃ k, fuel = k + 1 := ⟨fuel - 1, by simp at hfuel; omega⟩
    simp only [List.map_cons, Delivers] at hdel
    obtain ⟨hrd, hne, hle, hrest⟩ := hdel
    have hwfb : ∀ r ∈ b, WellFormed L r := hwf b (List.mem_cons_self _ _)
    have hw : ∀ r ∈ b, Whole L r := fun r hr => wellFormed_whole L hL r (hwfb r hr)
    have hbne : b ≠ [] := by
      intro hb
      subst hb
      exact hne rfl
    rw [fileCheckLoop_batch L hL rd fd pfuel k buf names s b hw hbne hrd hle
      (hp b (List.mem_cons_self _ _))]
    have hc := windowNames_lt_credit L b hw (by omega) (-1) (by decide) (by decide)
    rw [List.take_of_length_le (by omega), windowNames_eq_liveNames L b hwfb]
    rw [ih k _ _ _ (fun b' hb' => hwf b' (List.mem_cons_of_mem _ hb'))
      (by simpa [Slice.len] using hrest) (by simp at hfuel; omega)
      (fun b' hb' => hp b' (List.mem_cons_of_mem _ hb'))
      (by simp only [Slice.len]; omega)]
    simp

/-- The directory branch when every batch fits in the buffer the loop offers: when a
path opens, its metadata passes `isDir`, and the reads deliver non-empty batches of
whole well-formed records, the first within 32 KiB and each of the others within the
bytes filled by the read before, followed by a read with a zero count, `fileCheck`
returns a nil error, `dir = true`, size 0 and the names decoded from the batches, in
order. -/
theorem fileCheck_directory {Path σ : Type} (L : Layout) (hL : L.Valid) (os : OS Path σ)
    (fp : Path) (s s1 s2 : σ) (fd : Int) (st : Stat_t)
    (batches : List (List (List Byte)))
    (hopen : os.Open fp s = ((fd, none), s1))
    (hstat : os.Fstat fd s1 = ((st, none), s2))
    (hdir : isDir (st.Mode % 2 ^ 32) = true)
    (hwf : ∀ b ∈ batches, ∀ r ∈ b, WellFormed L r)
    (hdel : Delivers os.ReadDirent fd s2 (32 * 1024) (batches.map List.flatten))
    (fuel : Nat) (hf1 : batches.length < fuel) (hf2 : ∀ b ∈ batches, b.length ≤ fuel) :
    (fileCheck L os fuel fp s).result
      = .ret { names := (batches.map (liveNames L)).flatten, size := 0, dir := true,
               err := none } := by
  have hloop := fileCheckLoop_delivers L hL os.ReadDirent fd fuel batches fuel
    (makeBytes (32 * 1024)) [] s2 hwf (by rw [makeBytes_len]; exact hdel) hf1 hf2
    (by rw [makeBytes_len]; norm_num)
  obtain ⟨osOpen, osFstat, osRead, osClose⟩ := os
  simp only at hopen hstat hloop
  simp only [fileCheck, hopen, hstat, ne_eq, not_true_eq_false, if_false, hdir, Bool.not_true,
    Bool.false_eq_true]
  cases hx : fileCheckLoop L osRead fd fuel fuel (makeBytes (32 * 1024)) [] s2 with
  | ret a =>
    obtain ⟨⟨names, err⟩, s3⟩ := a
    rw [hx] at hloop
    simp only [Outcome.result, Outcome.ret.injEq, Prod.mk.injEq, List.nil_append] at hloop
    simp [Outcome.result, hloop.1, hloop.2]
  | panic => rw [hx] at hloop; simp [Outcome.result] at hloop
  | outOfFuel => rw [hx] at hloop; simp [Outcome.result] at hloop

/-- The directory branch on a directory read in one batch of three records: `"a"`,
`"."` and `"bc"`. -/
theorem fileCheck_directory_witness :
    (fileCheck linuxAmd64 dirOS 3 ()
        [rec24 1 97 0 0 0 0, rec24 1 46 0 0 0 0, rec24 1 98 99 0 0 0]).result
      = .ret { names := [[97], [98, 99]], size := 0, dir := true, err := none } :=
  fileCheck_directory linuxAmd64 (by decide) dirOS ()
    [rec24 1 97 0 0 0 0, rec24 1 46 0 0 0 0, rec24 1 98 99 0 0 0]
    [rec24 1 97 0 0 0 0, rec24 1 46 0 0 0 0, rec24 1 98 99 0 0 0]
    [rec24 1 97 0 0 0 0, rec24 1 46 0 0 0 0, rec24 1 98 99 0 0 0]
    3 { Mode := 0x41ED, Size := 4096 }
    [[rec24 1 97 0 0 0 0, rec24 1 46 0 0 0 0, rec24 1 98 99 0 0 0]]
    rfl rfl (by decide) (by decide)
    ⟨by decide, by decide, by decide, (by decide : (dirRead 3 72 []).1.n = 0)⟩
    3 (by decide) (by decide)

/-! ## The buffer offered to the reads after the first -/

theorem bigRecord_length : bigRecord.length = 32760 := by
  unfold bigRecord
  rw [List.length_append, List.length_append, List.length_replicate]
  rfl

theorem bigRecord_whole : Whole linuxAmd64 bigRecord := by
  have hd : declaredLen linuxAmd64 bigRecord = 32760 := by decide
  refine ⟨by rw [hd, bigRecord_length], ?_, ?_⟩
  · rw [bigRecord_length]; decide
  · rw [bigRecord_length]; decide

theorem dirRead_small_then_big :
    dirRead 3 (32 * 1024) [rec24 1 97 0 0 0 0, bigRecord]
      = ({ n := 24, err := none, data := rec24 1 97 0 0 0 0 }, [bigRecord]) := by
  simp [dirRead, fitPrefix, bigRecord_length, rec24]

theorem dirRead_big_in_small_buffer :
    dirRead 3 24 [bigRecord] = ({ n := -1, err := some EINVAL, data := [] }, [bigRecord]) := by
  simp [dirRead, bigRecord_length]

theorem dirRead_big_in_fresh_buffer :
    dirRead 3 (32 * 1024) [bigRecord]
      = ({ n := 32760, err := none, data := bigRecord }, []) := by
  simp [dirRead, fitPrefix, bigRecord_length]

theorem fileCheckLoopFresh_zero_read {σ : Type} (L : Layout)
    (rd : Int → Nat → σ → ReadResult × σ) (fd : Int) (pfuel fuel : Nat)
    (names : List Name) (s : σ) (h : (rd fd (32 * 1024) s).1.n = 0) :
    fileCheckLoopFresh L rd fd pfuel (fuel + 1) names s
      = .ret ((names, none), (rd fd (32 * 1024) s).2) := by
  rw [fileCheckLoopFresh, makeBytes_len]
  simp only [h, if_true]

/-- C16, on the code: a directory of a 24-byte record `"a"` followed by a record of
32760 bytes. The first read, offered 32 KiB, delivers the first record only. The loop
of `fileCheck` then offers the 24 bytes it re-sliced its buffer to, the read fails with
`EINVAL`, and the loop returns that error with the name `"a"`; the variant that offers
a fresh 32 KiB buffer reads the second record and returns both names and a nil
error. -/
theorem fileCheckLoop_shrinks_buffer :
    fileCheckLoop linuxAmd64 dirRead 3 1 3 (makeBytes (32 * 1024)) []
        [rec24 1 97 0 0 0 0, bigRecord]
      = .ret (([[97]], some EINVAL), [bigRecord]) ∧
    fileCheckLoopFresh linuxAmd64 dirRead 3 1 3 [] [rec24 1 97 0 0 0 0, bigRecord]
      = .ret (([97] :: (windowNames linuxAmd64 [bigRecord]).take (credit (-1)), none), []) := by
  have hA : ∀ r ∈ [rec24 1 97 0 0 0 0], Whole linuxAmd64 r := by decide
  have hB : ∀ r ∈ [bigRecord], Whole linuxAmd64 r := by
    intro r hr
    rw [List.mem_singleton.1 hr]
    exact bigRecord_whole
  have hnamesA : (windowNames linuxAmd64 [rec24 1 97 0 0 0 0]).take (credit (-1)) = [[97]] := by
    decide
  have hflatB : [bigRecord].flatten = bigRecord := by simp
  constructor
  · rw [fileCheckLoop_batch linuxAmd64 (by decide) dirRead 3 1 2 (makeBytes (32 * 1024)) []
      [rec24 1 97 0 0 0 0, bigRecord] [rec24 1 97 0 0 0 0] hA (by decide)
      (by rw [makeBytes_len, dirRead_small_then_big]; rfl)
      (by rw [makeBytes_len]; decide) (by decide)]
    rw [makeBytes_len, dirRead_small_then_big, hnamesA]
    have h := (fileCheckLoop_first_read linuxAmd64 dirRead 3 1 1
      ⟨[rec24 1 97 0 0 0 0].flatten,
        (makeBytes (32 * 1024)).vis.drop [rec24 1 97 0 0 0 0].flatten.length
          ++ (makeBytes (32 * 1024)).ext⟩ ([] ++ [[97]]) [bigRecord]).2
    have hlen : (Slice.mk [rec24 1 97 0 0 0 0].flatten
        ((makeBytes (32 * 1024)).vis.drop [rec24 1 97 0 0 0 0].flatten.length
          ++ (makeBytes (32 * 1024)).ext)).len = 24 := rfl
    rw [hlen, dirRead_big_in_small_buffer] at h
    exact h (by decide) (by decide)
  · rw [fileCheckLoopFresh_batch linuxAmd64 (by decide) dirRead 3 1 2 []
      [rec24 1 97 0 0 0 0, bigRecord] [rec24 1 97 0 0 0 0] hA (by decide)
      (by rw [dirRead_small_then_big]; rfl) (by decide) (by decide)]
    rw [dirRead_small_then_big, hnamesA]
    rw [fileCheckLoopFresh_batch linuxAmd64 (by decide) dirRead 3 1 1 ([] ++ [[97]])
      [bigRecord] [bigRecord] hB (List.cons_ne_nil _ _)
      (by rw [dirRead_big_in_fresh_buffer, hflatB, bigRecord_length]; rfl)
      (by rw [hflatB, bigRecord_length]; decide) (by decide)]
    rw [dirRead_big_in_fresh_buffer]
    simp only [List.nil_append, List.cons_append]
    exact fileCheckLoopFresh_zero_read linuxAmd64 dirRead 3 1 0
      ([97] :: (windowNames linuxAmd64 [bigRecord]).take (credit (-1))) [] rfl

/-! ## Decoding in batches -/

theorem parseDirentBody_eq_recordStep (L : Layout) (buf : Slice) (names : List Name)
    (n : Int) :
    parseDirentBody L buf names n
      = (recordStep L buf).map (fun p =>
          match p.2 with
          | none => (p.1, names, n)
          | some name => (p.1, names ++ [name], wrapInt64 (n - 1))) := by
  unfold parseDirentBody recordStep
  cases (buf.slice L.RecOff (L.RecOff + L.RecSize)).bind Uint16 with
  | none => rfl
  | some recLen =>
    simp only [Option.bind_eq_bind, Option.some_bind]
    cases buf.sliceTo recLen with
    | none => rfl
    | some rec =>
      simp only [Option.some_bind]
      cases buf.sliceFrom recLen with
      | none => rfl
      | some buf2 =>
        simp only [Option.some_bind]
        cases (rec.slice L.InoOff (L.InoOff + L.InoSize)).bind Uint64 with
        | none => rfl
        | some ino =>
          simp only [Option.some_bind]
          by_cases hi : ino = 0
          · simp [hi]
          · simp only [hi, if_false]
            cases decodeName L rec with
            | none => rfl
            | some name =>
              simp only [Option.some_bind]
              by_cases hp : name = dot ∨ name = dotdot
              · simp [hp]
              · simp [hp]

theorem slice_len (s t : Slice) (lo hi : Nat) (h : s.slice lo hi = some t) :
    t.len = hi - lo ∧ lo ≤ hi ∧ hi ≤ s.cap := by
  unfold Slice.slice at h
  split at h
  · rename_i hc
    cases h
    refine ⟨?_, hc.1, hc.2⟩
    simp only [Slice.len, List.length_take, List.length_drop, List.length_append]
    have := hc.2
    simp only [Slice.cap] at this
    omega
  · cases h

theorem decodeName_some_len (L : Layout) (rec : Slice) (name : Name)
    (h : decodeName L rec = some name) : L.NameOff ≤ rec.len := by
  unfold decodeName at h
  cases hs : rec.sliceFrom L.NameOff with
  | none => rw [hs] at h; simp at h
  | some nb =>
    have := (slice_len rec nb _ _ hs).2.1
    exact this

/-- The buffer never grows in an iteration, and shrinks when a name is accepted. -/
theorem recordStep_len (L : Layout) (hL : L.Valid) (buf b : Slice) (o : Option Name)
    (h : recordStep L buf = some (b, o)) :
    b.len ≤ buf.len ∧ (o ≠ none → b.len < buf.len) := by
  have hpos : 0 < L.NameOff := by
    obtain ⟨h1, _, h3, _⟩ := hL
    omega
  unfold recordStep at h
  cases h1 : (buf.slice L.RecOff (L.RecOff + L.RecSize)).bind Uint16 with
  | none => rw [h1] at h; simp at h
  | some recLen =>
    rw [h1] at h
    simp only [Option.bind_eq_bind, Option.some_bind] at h
    cases h2 : buf.sliceTo recLen with
    | none => rw [h2] at h; simp at h
    | some rec =>
      rw [h2] at h
      simp only [Option.some_bind] at h
      cases h3 : buf.sliceFrom recLen with
      | none => rw [h3] at h; simp at h
      | some buf2 =>
        rw [h3] at h
        simp only [Option.some_bind] at h
        have hb2 := slice_len buf buf2 _ _ h3
        have hrec := slice_len buf rec _ _ h2
        cases h4 : (rec.slice L.InoOff (L.InoOff + L.InoSize)).bind Uint64 with
        | none => rw [h4] at h; simp at h
        | some ino =>
          rw [h4] at h
          simp only [Option.some_bind] at h
          by_cases hi : ino = 0
          · simp only [hi, if_true, Option.some.injEq, Prod.mk.injEq] at h
            obtain ⟨rfl, rfl⟩ := h
            exact ⟨by omega, fun hne => absurd rfl hne⟩
          · simp only [hi, if_false] at h
            cases h5 : decodeName L rec with
            | none => rw [h5] at h; simp at h
            | some name =>
              rw [h5] at h
              simp only [Option.some_bind] at h
              have hname := decodeName_some_len L rec name h5
              by_cases hp : name = dot ∨ name = dotdot
              · simp only [hp, if_true, Option.some.injEq, Prod.mk.injEq] at h
                obtain ⟨rfl, rfl⟩ := h
                exact ⟨by omega, fun hne => absurd rfl hne⟩
              · simp only [hp, if_false, Option.some.injEq, Prod.mk.injEq] at h
                obtain ⟨rfl, rfl⟩ := h
                refine ⟨by omega, fun _ => ?_⟩
                omega

theorem credit_pos_ne_zero (n : Int) (h : 0 < credit n) : n ≠ 0 := by
  intro h0
  subst h0
  simp [credit] at h

theorem credit_wrap_pred (n : Int) (hn : IsInt64 n) (h : 0 < credit n) :
    credit (wrapInt64 (n - 1)) = credit n - 1 := by
  have := credit_dec n hn (credit_pos_ne_zero n h)
  omega

/-- Two budgets that both exceed the length of the buffer give the same outcome. -/
theorem parseDirent_budget_irrelevant (L : Layout) (hL : L.Valid) (fuel : Nat) :
    ∀ (buf : Slice) (names : List Name) (n m : Int), IsInt64 n → IsInt64 m →
      buf.len < credit n → buf.len < credit m →
      parseDirent L fuel buf names n = parseDirent L fuel buf names m := by
  induction fuel with
  | zero =>
    intro buf names n m _ _ hcn hcm
    have hn0 := credit_pos_ne_zero n (by omega)
    have hm0 := credit_pos_ne_zero m (by omega)
    simp [parseDirent, loopCond, hn0, hm0]
  | succ k ih =>
    intro buf names n m hn hm hcn hcm
    have hn0 := credit_pos_ne_zero n (by omega)
    have hm0 := credit_pos_ne_zero m (by omega)
    rw [parseDirent, parseDirent]
    have hc : loopCond L buf n = loopCond L buf m := by simp [loopCond, hn0, hm0]
    rw [hc]
    by_cases hcond : loopCond L buf m = true
    · simp only [hcond, if_true]
      rw [parseDirentBody_eq_recordStep, parseDirentBody_eq_recordStep]
      cases hs : recordStep L buf with
      | none => rfl
      | some p =>
        obtain ⟨b, o⟩ := p
        have hlen := recordStep_len L hL buf b o hs
        cases o with
        | none =>
          simp only [Option.map_some']
          exact ih b names n m hn hm (by omega) (by omega)
        | some name =>
          simp only [Option.map_some']
          have h1 := credit_wrap_pred n hn (by omega)
          have h2 := credit_wrap_pred m hm (by omega)
          have hlt := hlen.2 (by simp)
          exact ih b _ _ _ (wrapInt64_isInt64 _) (wrapInt64_isInt64 _) (by omega) (by omega)
    · simp [hcond]

theorem prependNames_prependNames (a b : List Name)
    (o : Outcome (List Name × Option GoError)) :
    prependNames a (prependNames b o) = prependNames (a ++ b) o := by
  cases o with
  | ret p => obtain ⟨out, err⟩ := p; simp [prependNames]
  | panic => rfl
  | outOfFuel => rfl

/-- The initial name list is only ever appended to. -/
theorem parseDirent_prepend (L : Layout) (fuel : Nat) :
    ∀ (buf : Slice) (names : List Name) (n : Int),
      parseDirent L fuel buf names n = prependNames names (parseDirent L fuel buf [] n) := by
  induction fuel with
  | zero =>
    intro buf names n
    by_cases hc : loopCond L buf n = true <;> simp [parseDirent, hc, prependNames]
  | succ k ih =>
    intro buf names n
    rw [parseDirent, parseDirent]
    by_cases hc : loopCond L buf n = true
    · simp only [hc, if_true]
      rw [parseDirentBody_eq_recordStep, parseDirentBody_eq_recordStep]
      cases hs : recordStep L buf with
      | none => simp [prependNames]
      | some p =>
        obtain ⟨b, o⟩ := p
        cases o with
        | none =>
          simp only [Option.map_some']
          exact ih b names n
        | some name =>
          simp only [Option.map_some', List.nil_append]
          rw [ih b (names ++ [name]), ih b [name], prependNames_prependNames]
    · simp [hc, prependNames]

/-- C17: for a buffer `b1` made of whole well-formed records, any buffer `b2`, any
initial name list and a negative budget (the two buffers together being shorter than
`2 ^ 63` bytes): decoding `b1` returns the initial names followed by the names of
`b1`; decoding `b1 ++ b2` is decoding `b2` from the list that decoding `b1` returns,
with the fuel the records of `b1` use added; and decoding any buffer from `names` is
`names` followed by what decoding it from the empty list returns. -/
theorem parseDirent_concat (L : Layout) (hL : L.Valid) (recs : List (List Byte))
    (hwf : ∀ r ∈ recs, WellFormed L r) (b2 e1 e : List Byte) (names : List Name)
    (n : Int) (hn : IsInt64 n) (hneg : n < 0)
    (hlen : (recs.flatten ++ b2).length < 2 ^ 63) (fuel : Nat) :
    parseDirent L recs.length ⟨recs.flatten, e1⟩ names n
        = .ret (names ++ liveNames L recs, none) ∧
      parseDirent L (recs.length + fuel) ⟨recs.flatten ++ b2, e⟩ names n
        = parseDirent L fuel ⟨b2, e⟩ (names ++ liveNames L recs) n ∧
      (∀ (k : Nat) (b : List Byte),
        parseDirent L k ⟨b, e⟩ names n
          = prependNames names (parseDirent L k ⟨b, e⟩ [] n)) := by
  have hw : ∀ r ∈ recs, Whole L r := fun r hr => wellFormed_whole L hL r (hwf r hr)
  rw [List.length_append] at hlen
  have hc := windowNames_lt_credit L recs hw (by omega) n hn hneg
  have hcn := credit_neg n hn hneg
  have hk1 := windowNames_length_le L recs
  have hk2 := length_le_flatten recs (fun r hr => by have := (hw r hr).2.2; omega)
  refine ⟨?_, ?_, fun k b => parseDirent_prepend L k ⟨b, e⟩ names n⟩
  · rw [parseDirent_whole L hL recs hw e1 recs.length (le_refl _) names n hn,
      List.take_of_length_le (by omega), windowNames_eq_liveNames L recs hwf]
  · rw [parseDirent_whole_append L hL recs hw b2 e fuel names n hn]
    simp only [hc, if_true]
    rw [windowNames_eq_liveNames L recs hwf] at hc hk1 ⊢
    apply parseDirent_budget_irrelevant L hL fuel _ _ _ _ (wrapInt64_isInt64 _) hn
    · have : credit (wrapInt64 (n - ((liveNames L recs).length : Nat)))
          = credit n - (liveNames L recs).length := by
        unfold IsInt64 at hn
        unfold credit wrapInt64 at *
        omega
      simp only [Slice.len]
      omega
    · simp only [Slice.len]
      omega

/-- C17 on a first buffer of one record `"a"` and a second buffer of one record `"b"`
followed by three stray bytes. -/
theorem parseDirent_concat_witness :
    parseDirent linuxAmd64 (1 + 1)
        ⟨[rec24 1 97 0 0 0 0].flatten ++ (rec24 1 98 0 0 0 0 ++ [1, 2, 3]), []⟩ [[120]] (-1)
      = parseDirent linuxAmd64 1 ⟨rec24 1 98 0 0 0 0 ++ [1, 2, 3], []⟩
          ([[120]] ++ [[97]]) (-1) :=
  (parseDirent_concat linuxAmd64 (by decide) [rec24 1 97 0 0 0 0] (by decide)
    (rec24 1 98 0 0 0 0 ++ [1, 2, 3]) [] [] [[120]] (-1) (by decide) (by decide) (by decide)
    1).2.1

/-! ## A directory delivered one record per read -/

theorem fileCheck_recordOS (L : Layout) (fuel : Nat) (s : List (List Byte)) :
    fileCheck L recordOS fuel () s
      = match fileCheckLoop L recordRead 3 fuel fuel (makeBytes (32 * 1024)) [] s with
        | .ret ((names, err), s) =>
          .ret ({ names := names, size := 0, dir := true, err := err }, s)
        | .panic => .panic
        | .outOfFuel => .outOfFuel := by
  have hd : isDir (0x41ED % 2 ^ 32) = true := by decide
  simp only [fileCheck, recordOS, ne_eq, not_true_eq_false, if_false, hd, Bool.not_true,
    Bool.false_eq_true]
  rcases fileCheckLoop L recordRead 3 fuel fuel (makeBytes (32 * 1024)) [] s
    with ⟨⟨names, err⟩, s2⟩ | _ | _ <;> rfl

theorem recordRead_first :
    recordRead 3 (32 * 1024)
        [rec24 1 97 0 0 0 0, rec32 1 [98, 99, 100, 101, 102, 103]]
      = ({ n := 24, err := none, data := rec24 1 97 0 0 0 0 },
          [rec32 1 [98, 99, 100, 101, 102, 103]]) := by
  decide

theorem recordRead_second_small :
    recordRead 3 24 [rec32 1 [98, 99, 100, 101, 102, 103]]
      = ({ n := -1, err := some EINVAL, data := [] },
          [rec32 1 [98, 99, 100, 101, 102, 103]]) := by
  decide

theorem recordRead_second_fresh :
    recordRead 3 (32 * 1024) [rec32 1 [98, 99, 100, 101, 102, 103]]
      = ({ n := 32, err := none, data := rec32 1 [98, 99, 100, 101, 102, 103] }, []) := by
  decide

/-- C12, on the code: a directory of two well-formed records, `"a"` (24 bytes) and
`"bcdefg"` (32 bytes), on a file system that hands over one record per read. The first
read is offered 32 KiB and delivers the first record; `fileCheck` re-slices its buffer
to those 24 bytes, the second read fails with `EINVAL`, and `fileCheck` returns the
name `"a"` with that error. The loop that offers 32 KiB to every read is delivered
both batches and a zero-length read, and returns both names with a nil error. -/
theorem fileCheck_loses_longer_batch :
    (∀ r ∈ [rec24 1 97 0 0 0 0, rec32 1 [98, 99, 100, 101, 102, 103]],
        WellFormed linuxAmd64 r) ∧
      (fileCheck linuxAmd64 recordOS 3 ()
          [rec24 1 97 0 0 0 0, rec32 1 [98, 99, 100, 101, 102, 103]]).result
        = .ret { names := [[97]], size := 0, dir := true, err := some EINVAL } ∧
      (fileCheckLoopFresh linuxAmd64 recordRead 3 3 3 []
          [rec24 1 97 0 0 0 0, rec32 1 [98, 99, 100, 101, 102, 103]]).result
        = .ret ([[97], [98, 99, 100, 101, 102, 103]], none) := by
  have hA : ∀ r ∈ [rec24 1 97 0 0 0 0], Whole linuxAmd64 r := by decide
  have hB : ∀ r ∈ [rec32 1 [98, 99, 100, 101, 102, 103]], Whole linuxAmd64 r := by decide
  have hnamesA : (windowNames linuxAmd64 [rec24 1 97 0 0 0 0]).take (credit (-1)) = [[97]] := by
    decide
  have hnamesB : (windowNames linuxAmd64 [rec32 1 [98, 99, 100, 101, 102, 103]]).take
      (credit (-1)) = [[98, 99, 100, 101, 102, 103]] := by
    decide
  refine ⟨by decide, ?_, ?_⟩
  · have hloop : fileCheckLoop linuxAmd64 recordRead 3 3 3 (makeBytes (32 * 1024)) []
        [rec24 1 97 0 0 0 0, rec32 1 [98, 99, 100, 101, 102, 103]]
        = .ret (([[97]], some EINVAL), [rec32 1 [98, 99, 100, 101, 102, 103]]) := by
      rw [fileCheckLoop_batch linuxAmd64 (by decide) recordRead 3 3 2 (makeBytes (32 * 1024))
        [] [rec24 1 97 0 0 0 0, rec32 1 [98, 99, 100, 101, 102, 103]] [rec24 1 97 0 0 0 0] hA
        (by decide) (by rw [makeBytes_len, recordRead_first]; rfl)
        (by rw [makeBytes_len]; decide) (by decide)]
      rw [makeBytes_len, recordRead_first, hnamesA]
      have h := (fileCheckLoop_first_read linuxAmd64 recordRead 3 3 1
        ⟨[rec24 1 97 0 0 0 0].flatten,
          (makeBytes (32 * 1024)).vis.drop [rec24 1 97 0 0 0 0].flatten.length
            ++ (makeBytes (32 * 1024)).ext⟩ ([] ++ [[97]])
        [rec32 1 [98, 99, 100, 101, 102, 103]]).2
      have hlen : (Slice.mk [rec24 1 97 0 0 0 0].flatten
          ((makeBytes (32 * 1024)).vis.drop [rec24 1 97 0 0 0 0].flatten.length
            ++ (makeBytes (32 * 1024)).ext)).len = 24 := rfl
      rw [hlen, recordRead_second_small] at h
      exact h (by decide) (by decide)
    rw [fileCheck_recordOS, hloop]
    rfl
  · rw [fileCheckLoopFresh_batch linuxAmd64 (by decide) recordRead 3 3 2 []
      [rec24 1 97 0 0 0 0, rec32 1 [98, 99, 100, 101, 102, 103]] [rec24 1 97 0 0 0 0] hA
      (by decide) (by rw [recordRead_first]; rfl) (by decide) (by decide)]
    rw [recordRead_first, hnamesA]
    rw [fileCheckLoopFresh_batch linuxAmd64 (by decide) recordRead 3 3 1 ([] ++ [[97]])
      [rec32 1 [98, 99, 100, 101, 102, 103]] [rec32 1 [98, 99, 100, 101, 102, 103]] hB
      (by decide) (by rw [recordRead_second_fresh]; rfl) (by decide) (by decide)]
    rw [recordRead_second_fresh, hnamesB]
    rw [fileCheckLoopFresh_zero_read linuxAmd64 recordRead 3 3 0 _ [] rfl]
    rfl

end GoDirUsage
